import Mathlib

/-!
# Task tracker (`main.go`): embedding and checked properties

The program keeps task records in one bbolt bucket (`task`) and a process
global slice `taskList` that maps a 1-based listing position to a store key.

Modelling decisions, all visible in the definitions below:

* A bucket is its sequence counter plus its key/value pairs in iteration
  order.  bbolt keeps keys unique and ascending in byte order; that
  representation invariant is the predicate `Bucket.WF`.  The operations do
  not assume it, the theorems that need it take it as a hypothesis.
* A stored value is represented by the `TaskRecord` it decodes to; `Bucket.Get`
  of a missing key gives `none`, which is the `nil` value on which
  `json.Unmarshal` fails.  Command line arguments are Go strings, that is byte
  strings (`GoString`); `json.Marshal` writes every byte that is not part of a
  valid UTF-8 sequence as U+FFFD, so the description a stored value decodes to
  is `jsonText` of the joined arguments, a valid text (`String`).
* Keys are byte strings (`List Nat`).  Inside one command the slices that
  `ForEach` hands to its callback read as the keys they were taken from.  They
  are views into the pages of the database file, so once later commands have
  rewritten the file the slices kept in `taskList` may read as other keys: the
  environment step `Op.reread` replaces what the kept slices read as by any
  keys, keeping their number.
* The counter `idx` of `List` is a natural number, and `Completed` reads the
  clock once for the whole command.
* `time.Time` is a wall clock reading in nanoseconds since 0001-01-01 00:00:00,
  the zero value being `0`; `Time.Day` is the day of the month.
* `panic` and a non-nil `error` both end the command; an `Outcome` records the
  store and `taskList` left behind, the text written to standard output and
  the fault, if any.  A write transaction that panics is rolled back.
* `strconv.Atoi` is not modelled: `Do` and `Remove` take the parsed integer.
-/

/-- Byte strings used as bucket keys. -/
abbrev Key := List Nat

/-- The type of the global `taskList`. -/
abbrev KeyList := List Key

/-- Lines written to standard output. -/
abbrev Output := List String

/-- Reading of `time.Time`: nanoseconds since 0001-01-01 00:00:00. -/
structure Time where
  nanos : Nat
deriving DecidableEq, Repr

/-- The zero value of `time.Time`. -/
def Time.zero : Time := ⟨0⟩

/-- Cumulative days before each month of a non-leap year. -/
def daysBefore : List Nat :=
  [0, 31, 59, 90, 120, 151, 181, 212, 243, 273, 304, 334, 365]

/-- Gregorian leap year test. -/
def isLeap (year : Nat) : Bool :=
  year % 4 == 0 && (year % 100 != 0 || year % 400 == 0)

/-- Day of the month from the zero-based day of the year. -/
def dayOfYearToDay (yday : Nat) (leap : Bool) : Nat :=
  if leap && yday == 31 + 29 - 1 then 29
  else
    let day := if leap && yday > 31 + 29 - 1 then yday - 1 else yday
    let month := day / 31
    let stop := daysBefore.getD (month + 1) 0
    let start := if day ≥ stop then stop else daysBefore.getD month 0
    day - start + 1

/-- Model of `time.Time.Day`: the day of the month of a reading. -/
def Time.Day (t : Time) : Nat :=
  let d := t.nanos / 86400000000000
  let n400 := d / 146097
  let d := d - 146097 * n400
  let n100 := d / 36524
  let n100 := n100 - n100 / 4
  let d := d - 36524 * n100
  let n4 := d / 1461
  let d := d - 1461 * n4
  let n1 := d / 365
  let n1 := n1 - n1 / 4
  let d := d - 365 * n1
  let year := 400 * n400 + 100 * n100 + 4 * n4 + n1 + 1
  dayOfYearToDay d (isLeap year)

/-- The persisted record, `type TaskRecord struct`. -/
structure TaskRecord where
  IsActive : Bool
  Description : String
  FinishedAt : Time
deriving DecidableEq, Repr

/-- Go strings: byte strings, not necessarily valid UTF-8. -/
abbrev GoString := List Nat

/-- UTF-8 encoding of a code point. -/
def encodeRune (c : Nat) : GoString :=
  if c < 0x80 then [c]
  else if c < 0x800 then [0xC0 + c / 64, 0x80 + c % 64]
  else if c < 0x10000 then [0xE0 + c / 4096, 0x80 + c / 64 % 64, 0x80 + c % 64]
  else [0xF0 + c / 262144, 0x80 + c / 4096 % 64, 0x80 + c / 64 % 64, 0x80 + c % 64]

/-- The Go string holding the UTF-8 encoding of a text. -/
def goString (s : String) : GoString := s.data.flatMap (fun c => encodeRune c.toNat)

/-- Length of the UTF-8 sequence announced by a leading byte from `0xC2` to `0xF4`. -/
def runeSize (s0 : Nat) : Nat := if s0 < 0xE0 then 2 else if s0 < 0xF0 then 3 else 4

/-- Lowest second byte accepted after a leading byte. -/
def acceptLo (s0 : Nat) : Nat := if s0 = 0xE0 then 0xA0 else if s0 = 0xF0 then 0x90 else 0x80

/-- Highest second byte accepted after a leading byte. -/
def acceptHi (s0 : Nat) : Nat := if s0 = 0xED then 0x9F else if s0 = 0xF4 then 0x8F else 0xBF

/-- The multi-byte part of `utf8.DecodeRune`: code point and width, or U+FFFD with
width 1 when the sequence is cut short or a continuation byte is out of range. -/
def decodeTail (s0 sz lo hi : Nat) (rest : GoString) : Nat × Nat :=
  if rest.length + 1 < sz then (0xFFFD, 1)
  else
    match rest with
    | [] => (0xFFFD, 1)
    | s1 :: r1 =>
      if s1 < lo ∨ hi < s1 then (0xFFFD, 1)
      else if sz ≤ 2 then (s0 % 32 * 64 + s1 % 64, 2)
      else
        match r1 with
        | [] => (0xFFFD, 1)
        | s2 :: r2 =>
          if s2 < 0x80 ∨ 0xBF < s2 then (0xFFFD, 1)
          else if sz ≤ 3 then (s0 % 16 * 4096 + s1 % 64 * 64 + s2 % 64, 3)
          else
            match r2 with
            | [] => (0xFFFD, 1)
            | s3 :: _ =>
              if s3 < 0x80 ∨ 0xBF < s3 then (0xFFFD, 1)
              else (s0 % 8 * 262144 + s1 % 64 * 4096 + s2 % 64 * 64 + s3 % 64, 4)

/-- Model of `utf8.DecodeRune`: the first code point of a byte string and its
width; a byte that starts no valid sequence gives U+FFFD with width 1. -/
def decodeRune : GoString → Nat × Nat
  | [] => (0xFFFD, 0)
  | s0 :: rest =>
    if s0 < 0x80 then (s0, 1)
    else if s0 < 0xC2 ∨ 0xF4 < s0 then (0xFFFD, 1)
    else decodeTail s0 (runeSize s0) (acceptLo s0) (acceptHi s0) rest

/-- The code points of a byte string, U+FFFD standing for every byte that is not
part of a valid sequence; `fuel` bounds the number of code points. -/
def toValidAux : Nat → GoString → List Char
  | 0, _ => []
  | _ + 1, [] => []
  | fuel + 1, b :: t =>
    Char.ofNat (decodeRune (b :: t)).1 ::
      toValidAux fuel ((b :: t).drop (decodeRune (b :: t)).2)

/-- The text that a Go string becomes when written by `json.Marshal` and read
back by `json.Unmarshal`. -/
def jsonText (s : GoString) : String := ⟨toValidAux s.length s⟩

/-- Model of `strings.Join(cmdArgs, " ")`. -/
def joinArgs : List GoString → GoString
  | [] => []
  | a :: as => as.foldl (fun acc s => acc ++ [32] ++ s) a

/-- Conversion `int(id)` of a `uint64` to a 64-bit `int`. -/
def intOfUint64 (u : Nat) : Int :=
  if u % 2 ^ 64 < 2 ^ 63 then (u % 2 ^ 64 : Nat) else (u % 2 ^ 64 : Nat) - 2 ^ 64

/-- The function `itob`: `uint64(v)` written as 8 bytes, big endian. -/
def itob (v : Int) : List Nat :=
  let u := (v % 2 ^ 64).toNat
  [u / 2 ^ 56 % 256, u / 2 ^ 48 % 256, u / 2 ^ 40 % 256, u / 2 ^ 32 % 256,
   u / 2 ^ 24 % 256, u / 2 ^ 16 % 256, u / 2 ^ 8 % 256, u % 256]

/-- Byte order on keys (`bytes.Compare a b < 0`), the bucket's key order. -/
def bytesLess : List Nat → List Nat → Bool
  | [], [] => false
  | [], _ :: _ => true
  | _ :: _, [] => false
  | a :: as, b :: bs => a < b || (a == b && bytesLess as bs)

/-- The bucket `task`: its sequence counter and its pairs in iteration order. -/
structure Bucket where
  sequence : Nat
  entries : List (Key × TaskRecord)
deriving DecidableEq, Repr

/-- The database file: the bucket `task` is present or absent. -/
abbrev Store := Option Bucket

/-- Value stored under a key, first match in iteration order. -/
def getEntries : List (Key × TaskRecord) → Key → Option TaskRecord
  | [], _ => none
  | (k', v) :: t, k => if k = k' then some v else getEntries t k

/-- Store a value: replace at the key, or insert before the first larger key. -/
def putEntries : List (Key × TaskRecord) → Key → TaskRecord → List (Key × TaskRecord)
  | [], k, v => [(k, v)]
  | (k', v') :: t, k, v =>
    if k = k' then (k, v) :: t
    else if bytesLess k k' then (k, v) :: (k', v') :: t
    else (k', v') :: putEntries t k v

/-- Remove the pair stored under a key, if any. -/
def deleteEntries : List (Key × TaskRecord) → Key → List (Key × TaskRecord)
  | [], _ => []
  | (k', v') :: t, k => if k = k' then t else (k', v') :: deleteEntries t k

/-- Model of `bucket.Get`. -/
def Bucket.Get (b : Bucket) (k : Key) : Option TaskRecord := getEntries b.entries k

/-- Model of `bucket.Put`. -/
def Bucket.Put (b : Bucket) (k : Key) (v : TaskRecord) : Bucket :=
  { b with entries := putEntries b.entries k v }

/-- Model of `bucket.Delete`: deleting an absent key changes nothing. -/
def Bucket.Delete (b : Bucket) (k : Key) : Bucket :=
  { b with entries := deleteEntries b.entries k }

/-- Model of `bucket.NextSequence`: increment the 64-bit counter and return it. -/
def Bucket.NextSequence (b : Bucket) : Nat × Bucket :=
  let s := (b.sequence + 1) % 2 ^ 64
  (s, { b with sequence := s })

/-- Model of `tx.CreateBucketIfNotExists(task)`. -/
def CreateBucketIfNotExists (s : Store) : Bucket :=
  match s with
  | some b => b
  | none => { sequence := 0, entries := [] }

/-- Lookup in the store; an absent bucket holds nothing. -/
def Store.get (s : Store) (k : Key) : Option TaskRecord :=
  match s with
  | some b => b.Get k
  | none => none

/-- Representation invariant of a bucket: keys strictly ascending in byte order. -/
def Bucket.WF (b : Bucket) : Prop :=
  (b.entries.map Prod.fst).Pairwise (fun a c => bytesLess a c = true)

/-- Ways a command ends abnormally. -/
inductive Fault where
  /-- The nil pointer dereference of `ForEach` called on the nil bucket. -/
  | nilBucket
  /-- The index out of range panic of `taskList[value-1]`. -/
  | indexOutOfRange
  /-- The error `Bucket "task" not found!`. -/
  | bucketNotFound
  /-- The error of `json.Unmarshal` on the nil value of a missing key. -/
  | unmarshal
deriving DecidableEq, Repr

/-- What a command leaves behind. -/
structure Outcome where
  store : Store
  taskList : KeyList
  out : Output
  err : Option Fault
deriving DecidableEq, Repr

/-- The function `Add`; the record is the one that the stored `json.Marshal(task)`
decodes to. -/
def Main.Add (s : Store) (taskList : KeyList) (cmdArgs : List GoString) : Outcome :=
  let bucket := CreateBucketIfNotExists s
  let (id, bucket) := bucket.NextSequence
  let val := joinArgs cmdArgs
  let task : TaskRecord :=
    { IsActive := true, Description := jsonText val, FinishedAt := Time.zero }
  { store := some (bucket.Put (itob (intOfUint64 id)) task),
    taskList := taskList, out := [], err := none }

/-- Body of the `ForEach` callback of `updateTaskList`. -/
def rebuildStep (acc : KeyList) (kv : Key × TaskRecord) : KeyList :=
  if kv.2.IsActive then acc ++ [kv.1] else acc

/-- The function `updateTaskList`: the new `taskList`, or the fault. -/
def Main.updateTaskList (s : Store) : Except Fault KeyList :=
  match s with
  | none => .error .nilBucket
  | some b => .ok (b.entries.foldl rebuildStep [])

/-- The function `Do`, on the parsed position `value` at clock reading `now`. -/
def Main.Do (s : Store) (taskList : KeyList) (value : Int) (now : Time) : Outcome :=
  match (if taskList.length = 0 then Main.updateTaskList s else .ok taskList) with
  | .error f => { store := s, taskList := [], out := [], err := some f }
  | .ok taskList =>
    match s with
    | none => { store := s, taskList := taskList, out := [], err := some .bucketNotFound }
    | some bucket =>
      if value - 1 < 0 ∨ (taskList.length : Int) ≤ value - 1 then
        { store := s, taskList := taskList, out := [], err := some .indexOutOfRange }
      else
        let key := taskList.getD (value - 1).toNat []
        match bucket.Get key with
        | none => { store := s, taskList := taskList, out := [], err := some .unmarshal }
        | some task =>
          let task := { task with IsActive := false, FinishedAt := now }
          { store := some (bucket.Put key task), taskList := taskList,
            out := ["You have completed the " ++ task.Description ++ " task."],
            err := none }

/-- The function `Remove`, on the parsed position `value`. -/
def Main.Remove (s : Store) (taskList : KeyList) (value : Int) : Outcome :=
  match (if taskList.length = 0 then Main.updateTaskList s else .ok taskList) with
  | .error f => { store := s, taskList := [], out := [], err := some f }
  | .ok taskList =>
    match s with
    | none => { store := s, taskList := taskList, out := [], err := some .bucketNotFound }
    | some bucket =>
      if value - 1 < 0 ∨ (taskList.length : Int) ≤ value - 1 then
        { store := s, taskList := taskList, out := [], err := some .indexOutOfRange }
      else
        let key := taskList.getD (value - 1).toNat []
        { store := some (bucket.Delete key), taskList := taskList, out := [], err := none }

/-- Body of the `ForEach` callback of `Completed`. -/
def completedStep (now : Time) (out : Output) (kv : Key × TaskRecord) : Output :=
  if !kv.2.IsActive && decide ((now.Day : Int) - (kv.2.FinishedAt.Day : Int) ≤ 0) then
    out ++ [kv.2.Description ++ "\n"]
  else out

/-- The function `Completed` at clock reading `now`. -/
def Main.Completed (s : Store) (taskList : KeyList) (now : Time) : Outcome :=
  match s with
  | none =>
    { store := s, taskList := taskList, out := ["This task(s) was completed today:\n"],
      err := some .nilBucket }
  | some b =>
    { store := s, taskList := taskList,
      out := b.entries.foldl (completedStep now) ["This task(s) was completed today:\n"],
      err := none }

/-- Loop state of `List`: the counter `idx`, the output so far, the new `taskList`. -/
structure ListLoop where
  idx : Nat
  out : Output
  taskList : KeyList
deriving DecidableEq, Repr

/-- Body of the `ForEach` callback of `List`. -/
def listStep (st : ListLoop) (kv : Key × TaskRecord) : ListLoop :=
  if kv.2.IsActive then
    { idx := st.idx + 1,
      out := st.out ++ [toString st.idx ++ ". " ++ kv.2.Description ++ "\n"],
      taskList := st.taskList ++ [kv.1] }
  else st

/-- The function `List`. -/
def Main.List (s : Store) (_taskList : KeyList) : Outcome :=
  match s with
  | none => { store := s, taskList := [], out := [], err := some .nilBucket }
  | some b =>
    let st := b.entries.foldl listStep { idx := 1, out := [], taskList := [] }
    { store := s, taskList := st.taskList, out := st.out, err := none }

/-- The pairs of active records, in iteration order. -/
def activeEntries (es : List (Key × TaskRecord)) : List (Key × TaskRecord) :=
  es.filter (fun kv => kv.2.IsActive)

/-- The keys of the active records, in iteration order. -/
def activeKeys (es : List (Key × TaskRecord)) : KeyList :=
  (activeEntries es).map Prod.fst

/-- The lines `i. description`, numbered upwards from `i`. -/
def numberedLines : Nat → List (Key × TaskRecord) → Output
  | _, [] => []
  | i, kv :: t => (toString i ++ ". " ++ kv.2.Description ++ "\n") :: numberedLines (i + 1) t

/-- Number denoted by a byte string read big endian. -/
def beValue (k : Key) : Nat := k.foldl (fun acc byte => acc * 256 + byte) 0

/-- The sequence counter of a store; a bucket not yet created starts at 0. -/
def Store.sequence (s : Store) : Nat := (CreateBucketIfNotExists s).sequence

/-- The pairs of a store; an absent bucket has none. -/
def Store.entries (s : Store) : List (Key × TaskRecord) := (CreateBucketIfNotExists s).entries

/-- Data model of the store: keys unique and ascending, and every key the
encoding of a sequence number the bucket has already issued. -/
def Store.Consistent (s : Store) : Prop :=
  (CreateBucketIfNotExists s).WF ∧
    ∀ kv ∈ s.entries, ∃ i, i < s.sequence ∧ kv.1 = itob ((i + 1 : Nat) : Int)

instance Bucket.decidableWF (b : Bucket) : Decidable b.WF := by
  unfold Bucket.WF; infer_instance

instance Store.decidableConsistent (s : Store) : Decidable s.Consistent := by
  unfold Store.Consistent; infer_instance

/-- State of a running process: the database file and the keys that the slices
kept in the global `taskList` currently read as. -/
structure State where
  store : Store
  taskList : KeyList
deriving DecidableEq, Repr

/-- The commands, with the clock reading they observe, and two steps of the
environment: `restart` is the end of the process, after which the next command
finds `taskList` nil again; `reread` is the kept slices reading as other keys,
their number unchanged, because the pages they point into were rewritten. -/
inductive Op where
  | add (cmdArgs : List GoString)
  | list
  | done (value : Int) (now : Time)
  | remove (value : Int)
  | completed (now : Time)
  | restart
  | reread (reads : KeyList)
deriving DecidableEq, Repr

/-- Run one command. -/
def exec (st : State) : Op → Outcome
  | .add cmdArgs => Main.Add st.store st.taskList cmdArgs
  | .list => Main.List st.store st.taskList
  | .done value now => Main.Do st.store st.taskList value now
  | .remove value => Main.Remove st.store st.taskList value
  | .completed now => Main.Completed st.store st.taskList now
  | .restart => { store := st.store, taskList := [], out := [], err := none }
  | .reread reads =>
    { store := st.store,
      taskList := if reads.length = st.taskList.length then reads else st.taskList,
      out := [], err := none }

/-- State after one command; a fault leaves the store as the rolled back
transaction left it and `taskList` as the code left it.  The slices kept in
`taskList` read as the same keys when the next command starts unless a `reread`
step comes in between. -/
def step (st : State) (op : Op) : State :=
  { store := (exec st op).store, taskList := (exec st op).taskList }

/-- State after a sequence of commands. -/
def run (st : State) (ops : List Op) : State := ops.foldl step st

/-- State after a sequence of commands each run in a process of its own, as the
command line program runs them: `taskList` is nil when a command starts. -/
def runFresh (st : State) (ops : List Op) : State :=
  ops.foldl (fun st op => step (step st Op.restart) op) st

/-- The clock reading a `do` command observes is not the zero time. -/
def Op.clockSet : Op → Bool
  | .done _ now => decide (now ≠ Time.zero)
  | _ => true

/-- The command is a `remove`. -/
def Op.isRemove : Op → Bool
  | .remove _ => true
  | _ => false

/-- The pairs that a run of `add` commands creates, the counter standing at `seq`. -/
def addedEntries : Nat → List (List GoString) → List (Key × TaskRecord)
  | _, [] => []
  | seq, args :: t =>
    (itob ((seq + 1 : Nat) : Int),
      { IsActive := true, Description := jsonText (joinArgs args),
        FinishedAt := Time.zero }) :: addedEntries (seq + 1) t

/-- Number of `add` commands in a sequence. -/
def countAdds : List Op → Nat
  | [] => 0
  | .add _ :: t => countAdds t + 1
  | _ :: t => countAdds t

/-- The empty database file with a fresh process. -/
def State.initial : State := { store := none, taskList := [] }

/-- Condition under which `Completed` prints a record at clock reading `now`. -/
def completedShown (now : Time) (kv : Key × TaskRecord) : Bool :=
  !kv.2.IsActive && decide ((now.Day : Int) - (kv.2.FinishedAt.Day : Int) ≤ 0)

/-- Example bucket: two active tasks `a` and `b` as two calls of `Add` leave them. -/
def sampleTwo : Bucket :=
  { sequence := 2,
    entries := [(itob 1, ⟨true, "a", Time.zero⟩), (itob 2, ⟨true, "b", Time.zero⟩)] }

/-- Example bucket: one completed task `y` and one active task `x`. -/
def sampleMixed : Bucket :=
  { sequence := 2,
    entries := [(itob 1, ⟨false, "y", ⟨63928051200000000000⟩⟩),
      (itob 2, ⟨true, "x", Time.zero⟩)] }

/-- Example bucket whose counter stands at 0 although key 1 is in use. -/
def sampleUsedKey : Bucket :=
  { sequence := 0, entries := [(itob 1, ⟨false, "old", ⟨5⟩⟩)] }

/-- Example bucket: an active task `a` and a task `y` completed on 2026-10-20. -/
def sampleStale : Bucket :=
  { sequence := 2,
    entries := [(itob 1, ⟨true, "a", Time.zero⟩),
      (itob 2, ⟨false, "y", ⟨63928051200000000000⟩⟩)] }

/-! ## The key order -/

theorem bytesLess_irrefl (a : Key) : bytesLess a a = false := by
  induction a with
  | nil => rfl
  | cons x xs ih => simp [bytesLess, ih]

theorem bytesLess_trans {a b c : Key} (hab : bytesLess a b = true)
    (hbc : bytesLess b c = true) : bytesLess a c = true := by
  induction a generalizing b c with
  | nil =>
    cases b with
    | nil => simp [bytesLess] at hab
    | cons y ys =>
      cases c with
      | nil => simp [bytesLess] at hbc
      | cons z zs => simp [bytesLess]
  | cons x xs ih =>
    cases b with
    | nil => simp [bytesLess] at hab
    | cons y ys =>
      cases c with
      | nil => simp [bytesLess] at hbc
      | cons z zs =>
        simp only [bytesLess, Bool.or_eq_true, Bool.and_eq_true, decide_eq_true_eq,
          beq_iff_eq] at hab hbc ⊢
        rcases hab with h1 | ⟨h1, h2⟩
        · rcases hbc with h3 | ⟨h3, _⟩
          · left; omega
          · left; omega
        · rcases hbc with h3 | ⟨h3, h4⟩
          · left; omega
          · right; exact ⟨by omega, ih h2 h4⟩

theorem bytesLess_total {a b : Key} (hne : a ≠ b) :
    bytesLess a b = true ∨ bytesLess b a = true := by
  induction a generalizing b with
  | nil =>
    cases b with
    | nil => exact absurd rfl hne
    | cons y ys => simp [bytesLess]
  | cons x xs ih =>
    cases b with
    | nil => simp [bytesLess]
    | cons y ys =>
      simp only [bytesLess, Bool.or_eq_true, Bool.and_eq_true, decide_eq_true_eq, beq_iff_eq]
      rcases Nat.lt_trichotomy x y with h | h | h
      · left; left; exact h
      · subst h
        have hne2 : xs ≠ ys := fun h2 => hne (by rw [h2])
        rcases ih hne2 with h3 | h3
        · left; right; exact ⟨rfl, h3⟩
        · right; right; exact ⟨rfl, h3⟩
      · right; left; exact h

theorem bytesLess_ne {a b : Key} (h : bytesLess a b = true) : a ≠ b := by
  intro hab
  subst hab
  rw [bytesLess_irrefl] at h
  exact Bool.noConfusion h

theorem bytesLess_asymm {a b : Key} (h : bytesLess a b = true) : bytesLess b a = false := by
  cases hba : bytesLess b a with
  | false => rfl
  | true =>
    have h2 := bytesLess_trans h hba
    rw [bytesLess_irrefl] at h2
    exact Bool.noConfusion h2

/-! ## The key encoding -/

theorem uint64_intOfUint64 (u : Nat) : ((intOfUint64 u) % 2 ^ 64).toNat = u % 2 ^ 64 := by
  unfold intOfUint64
  split <;> omega

theorem beValue_itob (v : Int) : beValue (itob v) = (v % 2 ^ 64).toNat := by
  have h : (v % 2 ^ 64).toNat < 2 ^ 64 := by omega
  simp only [beValue, itob, List.foldl]
  generalize (v % 2 ^ 64).toNat = u at h ⊢
  omega

theorem foldl_be (l : List Nat) (acc : Nat) :
    l.foldl (fun acc byte => acc * 256 + byte) acc =
      acc * 256 ^ l.length + l.foldl (fun acc byte => acc * 256 + byte) 0 := by
  induction l generalizing acc with
  | nil => simp
  | cons a t ih =>
    simp only [List.foldl_cons, List.length_cons]
    rw [ih (acc * 256 + a), ih (0 * 256 + a)]
    ring

theorem beValue_cons (a : Nat) (t : List Nat) :
    beValue (a :: t) = a * 256 ^ t.length + beValue t := by
  simp only [beValue, List.foldl_cons]
  rw [foldl_be]
  ring

theorem beValue_lt (l : List Nat) (h : ∀ x ∈ l, x < 256) : beValue l < 256 ^ l.length := by
  induction l with
  | nil => simp [beValue]
  | cons a t ih =>
    rw [beValue_cons, List.length_cons, pow_succ]
    have h1 : a < 256 := h a (List.mem_cons_self _ _)
    have h2 := ih (fun x hx => h x (List.mem_cons_of_mem _ hx))
    nlinarith

theorem bytesLess_of_beValue_lt (x y : List Nat) (hlen : x.length = y.length)
    (hx : ∀ c ∈ x, c < 256) (hy : ∀ c ∈ y, c < 256) (h : beValue x < beValue y) :
    bytesLess x y = true := by
  induction x generalizing y with
  | nil =>
    cases y with
    | nil => simp [beValue] at h
    | cons b bs => simp at hlen
  | cons a as ih =>
    cases y with
    | nil => simp at hlen
    | cons b bs =>
      simp only [List.length_cons, Nat.add_right_cancel_iff] at hlen
      rw [beValue_cons, beValue_cons, hlen] at h
      have h1 := beValue_lt as (fun c hc => hx c (List.mem_cons_of_mem _ hc))
      have h2 := beValue_lt bs (fun c hc => hy c (List.mem_cons_of_mem _ hc))
      rw [hlen] at h1
      simp only [bytesLess, Bool.or_eq_true, Bool.and_eq_true, decide_eq_true_eq, beq_iff_eq]
      rcases Nat.lt_trichotomy a b with hab | hab | hab
      · left; exact hab
      · right
        subst hab
        refine ⟨rfl, ih bs hlen (fun c hc => hx c (List.mem_cons_of_mem _ hc))
          (fun c hc => hy c (List.mem_cons_of_mem _ hc)) (by omega)⟩
      · exfalso
        have : (b + 1) * 256 ^ bs.length ≤ a * 256 ^ bs.length :=
          Nat.mul_le_mul_right _ hab
        nlinarith

theorem itob_bytes (v : Int) : ∀ c ∈ itob v, c < 256 := by
  intro c hc
  simp only [itob, List.mem_cons, List.mem_singleton, List.not_mem_nil, or_false] at hc
  rcases hc with h | h | h | h | h | h | h | h <;> (rw [h]; exact Nat.mod_lt _ (by decide))

theorem itob_length (v : Int) : (itob v).length = 8 := rfl

theorem bytesLess_itob (a b : Int) (h : (a % 2 ^ 64).toNat < (b % 2 ^ 64).toNat) :
    bytesLess (itob a) (itob b) = true := by
  apply bytesLess_of_beValue_lt (itob a) (itob b) rfl (itob_bytes a) (itob_bytes b)
  rw [beValue_itob, beValue_itob]
  exact h

/-! ## Get, Put and Delete on the pairs of a bucket -/

theorem getEntries_put_same (es : List (Key × TaskRecord)) (k : Key) (v : TaskRecord) :
    getEntries (putEntries es k v) k = some v := by
  induction es with
  | nil => simp [putEntries, getEntries]
  | cons hd t ih =>
    obtain ⟨k', v'⟩ := hd
    simp only [putEntries]
    split
    · simp [getEntries]
    · split
      · simp [getEntries]
      · rename_i hne _
        simp [getEntries, hne, ih]

theorem getEntries_put_other (es : List (Key × TaskRecord)) (k k2 : Key) (v : TaskRecord)
    (hne : k2 ≠ k) : getEntries (putEntries es k v) k2 = getEntries es k2 := by
  induction es with
  | nil => simp [putEntries, getEntries, hne]
  | cons hd t ih =>
    obtain ⟨k', v'⟩ := hd
    simp only [putEntries]
    split
    · rename_i h
      subst h
      simp [getEntries, hne]
    · split
      · simp [getEntries, hne]
      · simp only [getEntries, ih]

theorem getEntries_delete_other (es : List (Key × TaskRecord)) (k k2 : Key)
    (hne : k2 ≠ k) : getEntries (deleteEntries es k) k2 = getEntries es k2 := by
  induction es with
  | nil => simp [deleteEntries]
  | cons hd t ih =>
    obtain ⟨k', v'⟩ := hd
    simp only [deleteEntries]
    split
    · rename_i h
      subst h
      simp [getEntries, hne]
    · simp only [getEntries, ih]

theorem getEntries_none_of_not_mem (es : List (Key × TaskRecord)) (k : Key)
    (h : k ∉ es.map Prod.fst) : getEntries es k = none := by
  induction es with
  | nil => rfl
  | cons hd t ih =>
    obtain ⟨k', v'⟩ := hd
    simp only [List.map_cons, List.mem_cons, not_or] at h
    simp [getEntries, h.1, ih h.2]

theorem getEntries_mem {es : List (Key × TaskRecord)} {k : Key} {r : TaskRecord}
    (h : getEntries es k = some r) : (k, r) ∈ es := by
  induction es with
  | nil => simp [getEntries] at h
  | cons hd t ih =>
    obtain ⟨k', v'⟩ := hd
    simp only [getEntries] at h
    split at h
    · rename_i hk
      subst hk
      simp only [Option.some.injEq] at h
      subst h
      exact List.mem_cons_self _ _
    · exact List.mem_cons_of_mem _ (ih h)

theorem mem_keys_delete {es : List (Key × TaskRecord)} {k k2 : Key}
    (h : k2 ∈ (deleteEntries es k).map Prod.fst) : k2 ∈ es.map Prod.fst := by
  induction es with
  | nil => simp [deleteEntries] at h
  | cons hd t ih =>
    obtain ⟨k', v'⟩ := hd
    simp only [deleteEntries] at h
    split at h
    · exact List.mem_cons_of_mem _ h
    · simp only [List.map_cons, List.mem_cons] at h ⊢
      rcases h with h | h
      · exact Or.inl h
      · exact Or.inr (ih h)

theorem mem_keys_put {es : List (Key × TaskRecord)} {k k2 : Key} {v : TaskRecord}
    (h : k2 ∈ (putEntries es k v).map Prod.fst) : k2 = k ∨ k2 ∈ es.map Prod.fst := by
  induction es with
  | nil => simpa [putEntries] using h
  | cons hd t ih =>
    obtain ⟨k', v'⟩ := hd
    simp only [putEntries] at h
    split at h
    · simp only [List.map_cons, List.mem_cons] at h ⊢
      rcases h with h | h
      · exact Or.inl h
      · exact Or.inr (Or.inr h)
    · split at h
      · simp only [List.map_cons, List.mem_cons] at h ⊢
        exact h
      · simp only [List.map_cons, List.mem_cons] at h ⊢
        rcases h with h | h
        · exact Or.inr (Or.inl h)
        · rcases ih h with h2 | h2
          · exact Or.inl h2
          · exact Or.inr (Or.inr h2)

theorem pairwise_keys_delete {es : List (Key × TaskRecord)} (k : Key)
    (h : (es.map Prod.fst).Pairwise (fun a c => bytesLess a c = true)) :
    ((deleteEntries es k).map Prod.fst).Pairwise (fun a c => bytesLess a c = true) := by
  induction es with
  | nil => simp [deleteEntries]
  | cons hd t ih =>
    obtain ⟨k', v'⟩ := hd
    simp only [List.map_cons, List.pairwise_cons] at h
    simp only [deleteEntries]
    split
    · exact h.2
    · simp only [List.map_cons, List.pairwise_cons]
      exact ⟨fun a ha => h.1 a (mem_keys_delete ha), ih h.2⟩

theorem pairwise_keys_put {es : List (Key × TaskRecord)} (k : Key) (v : TaskRecord)
    (h : (es.map Prod.fst).Pairwise (fun a c => bytesLess a c = true)) :
    ((putEntries es k v).map Prod.fst).Pairwise (fun a c => bytesLess a c = true) := by
  induction es with
  | nil => simp [putEntries]
  | cons hd t ih =>
    obtain ⟨k', v'⟩ := hd
    simp only [List.map_cons, List.pairwise_cons] at h
    simp only [putEntries]
    split
    · rename_i hk
      subst hk
      simp only [List.map_cons, List.pairwise_cons]
      exact h
    · split
      · rename_i hlt
        simp only [List.map_cons, List.pairwise_cons]
        refine ⟨?_, h⟩
        intro a ha
        simp only [List.mem_cons] at ha
        rcases ha with ha | ha
        · rw [ha]; exact hlt
        · exact bytesLess_trans hlt (h.1 a ha)
      · rename_i hne hnlt
        simp only [List.map_cons, List.pairwise_cons]
        refine ⟨?_, ih h.2⟩
        intro a ha
        rcases mem_keys_put ha with ha | ha
        · rw [ha]
          rcases bytesLess_total hne with h1 | h1
          · exact absurd h1 hnlt
          · exact h1
        · exact h.1 a ha

theorem getEntries_delete_same {es : List (Key × TaskRecord)} (k : Key)
    (h : (es.map Prod.fst).Pairwise (fun a c => bytesLess a c = true)) :
    getEntries (deleteEntries es k) k = none := by
  induction es with
  | nil => rfl
  | cons hd t ih =>
    obtain ⟨k', v'⟩ := hd
    simp only [List.map_cons, List.pairwise_cons] at h
    simp only [deleteEntries]
    split
    · rename_i hk
      subst hk
      apply getEntries_none_of_not_mem
      intro hmem
      exact bytesLess_ne (h.1 k hmem) rfl
    · rename_i hne
      simp [getEntries, hne, ih h.2]

/-! ## The loops of `List`, `updateTaskList` and `Completed` -/

theorem activeEntries_cons (kv : Key × TaskRecord) (t : List (Key × TaskRecord)) :
    activeEntries (kv :: t) =
      if kv.2.IsActive = true then kv :: activeEntries t else activeEntries t := by
  simp only [activeEntries, List.filter_cons]

theorem foldl_rebuildStep (es : List (Key × TaskRecord)) (acc : KeyList) :
    es.foldl rebuildStep acc = acc ++ activeKeys es := by
  induction es generalizing acc with
  | nil => simp [activeKeys, activeEntries]
  | cons kv t ih =>
    simp only [List.foldl_cons, ih, rebuildStep, activeKeys, activeEntries_cons]
    split <;> simp

theorem foldl_listStep (es : List (Key × TaskRecord)) (st : ListLoop) :
    es.foldl listStep st =
      { idx := st.idx + (activeEntries es).length,
        out := st.out ++ numberedLines st.idx (activeEntries es),
        taskList := st.taskList ++ activeKeys es } := by
  induction es generalizing st with
  | nil => simp [activeKeys, activeEntries, numberedLines]
  | cons kv t ih =>
    simp only [List.foldl_cons, ih, listStep, activeKeys, activeEntries_cons]
    split
    · simp [numberedLines]; omega
    · simp

theorem numberedLines_length (i : Nat) (l : List (Key × TaskRecord)) :
    (numberedLines i l).length = l.length := by
  induction l generalizing i with
  | nil => rfl
  | cons kv t ih => simp [numberedLines, ih]

theorem numberedLines_getElem? (i j : Nat) (l : List (Key × TaskRecord)) :
    (numberedLines i l)[j]? =
      (l[j]?).map (fun kv => toString (i + j) ++ ". " ++ kv.2.Description ++ "\n") := by
  induction l generalizing i j with
  | nil => simp [numberedLines]
  | cons kv t ih =>
    cases j with
    | zero => simp [numberedLines]
    | succ j =>
      simp only [numberedLines, List.getElem?_cons_succ, ih]
      have : i + 1 + j = i + (j + 1) := by omega
      rw [this]

theorem foldl_completedStep (now : Time) (es : List (Key × TaskRecord)) (out : Output) :
    es.foldl (completedStep now) out =
      out ++ (es.filter (completedShown now)).map (fun kv => kv.2.Description ++ "\n") := by
  induction es generalizing out with
  | nil => simp
  | cons kv t ih =>
    simp only [List.foldl_cons, ih, completedStep, List.filter_cons, completedShown]
    split <;> simp

/-! ## The record at a listing position -/

theorem active_getElem?_mem {es : List (Key × TaskRecord)} {i : Nat} {k : Key}
    {r : TaskRecord} (h : (activeEntries es)[i]? = some (k, r)) :
    k ∈ es.map Prod.fst ∧ r.IsActive = true := by
  have hmem : (k, r) ∈ activeEntries es := List.getElem?_mem h
  simp only [activeEntries, List.mem_filter] at hmem
  exact ⟨List.mem_map.mpr ⟨(k, r), hmem.1, rfl⟩, hmem.2⟩

theorem getEntries_active {es : List (Key × TaskRecord)} {i : Nat} {k : Key}
    {r : TaskRecord}
    (hwf : (es.map Prod.fst).Pairwise (fun a c => bytesLess a c = true))
    (h : (activeEntries es)[i]? = some (k, r)) : getEntries es k = some r := by
  induction es generalizing i with
  | nil => simp [activeEntries] at h
  | cons hd t ih =>
    obtain ⟨k0, r0⟩ := hd
    simp only [List.map_cons, List.pairwise_cons] at hwf
    rw [activeEntries_cons] at h
    have tail : ∀ j : Nat, (activeEntries t)[j]? = some (k, r) →
        getEntries ((k0, r0) :: t) k = some r := by
      intro j hj
      have hk : k ≠ k0 := fun e =>
        bytesLess_ne (hwf.1 k (active_getElem?_mem hj).1) e.symm
      simp only [getEntries, hk, if_false]
      exact ih hwf.2 hj
    split at h
    · cases i with
      | zero =>
        simp only [List.getElem?_cons_zero, Option.some.injEq, Prod.mk.injEq] at h
        simp [getEntries, h.1, h.2]
      | succ j => exact tail j (by simpa using h)
    · exact tail i h

theorem activeEntries_put {es : List (Key × TaskRecord)} {i : Nat} {k : Key}
    {r : TaskRecord} (v : TaskRecord) (hv : v.IsActive = false)
    (hwf : (es.map Prod.fst).Pairwise (fun a c => bytesLess a c = true))
    (h : (activeEntries es)[i]? = some (k, r)) :
    activeEntries (putEntries es k v) = (activeEntries es).eraseIdx i := by
  induction es generalizing i with
  | nil => simp [activeEntries] at h
  | cons hd t ih =>
    obtain ⟨k0, r0⟩ := hd
    simp only [List.map_cons, List.pairwise_cons] at hwf
    rw [activeEntries_cons] at h ⊢
    have tail : ∀ j : Nat, (activeEntries t)[j]? = some (k, r) →
        putEntries ((k0, r0) :: t) k v = (k0, r0) :: putEntries t k v := by
      intro j hj
      have hlt := hwf.1 k (active_getElem?_mem hj).1
      have hk : k ≠ k0 := fun e => bytesLess_ne hlt e.symm
      simp [putEntries, hk, bytesLess_asymm hlt]
    split at h
    · rename_i hact
      replace hact : r0.IsActive = true := hact
      cases i with
      | zero =>
        simp only [List.getElem?_cons_zero, Option.some.injEq, Prod.mk.injEq] at h
        simp [putEntries, h.1, activeEntries_cons, hv, hact]
      | succ j =>
        have hj : (activeEntries t)[j]? = some (k, r) := by simpa using h
        rw [tail j hj, activeEntries_cons]
        simp [hact, ih hwf.2 hj]
    · rename_i hact
      replace hact : ¬ r0.IsActive = true := hact
      rw [tail i h, activeEntries_cons]
      simp [hact, ih hwf.2 h]

theorem activeEntries_delete {es : List (Key × TaskRecord)} {i : Nat} {k : Key}
    {r : TaskRecord}
    (hwf : (es.map Prod.fst).Pairwise (fun a c => bytesLess a c = true))
    (h : (activeEntries es)[i]? = some (k, r)) :
    activeEntries (deleteEntries es k) = (activeEntries es).eraseIdx i := by
  induction es generalizing i with
  | nil => simp [activeEntries] at h
  | cons hd t ih =>
    obtain ⟨k0, r0⟩ := hd
    simp only [List.map_cons, List.pairwise_cons] at hwf
    rw [activeEntries_cons] at h ⊢
    have tail : ∀ j : Nat, (activeEntries t)[j]? = some (k, r) →
        deleteEntries ((k0, r0) :: t) k = (k0, r0) :: deleteEntries t k := by
      intro j hj
      have hlt := hwf.1 k (active_getElem?_mem hj).1
      have hk : k ≠ k0 := fun e => bytesLess_ne hlt e.symm
      simp [deleteEntries, hk]
    split at h
    · rename_i hact
      replace hact : r0.IsActive = true := hact
      cases i with
      | zero =>
        simp only [List.getElem?_cons_zero, Option.some.injEq, Prod.mk.injEq] at h
        simp [deleteEntries, h.1, hact]
      | succ j =>
        have hj : (activeEntries t)[j]? = some (k, r) := by simpa using h
        rw [tail j hj, activeEntries_cons]
        simp [hact, ih hwf.2 hj]
    · rename_i hact
      replace hact : ¬ r0.IsActive = true := hact
      rw [tail i h, activeEntries_cons]
      simp [hact, ih hwf.2 h]

theorem activeKeys_pairwise {es : List (Key × TaskRecord)}
    (hwf : (es.map Prod.fst).Pairwise (fun a c => bytesLess a c = true)) :
    (activeKeys es).Pairwise (fun a c => bytesLess a c = true) := by
  unfold activeKeys activeEntries
  exact List.Pairwise.sublist (List.Sublist.map _ (List.filter_sublist es)) hwf

theorem activeKeys_getElem? (es : List (Key × TaskRecord)) (i : Nat) :
    (activeKeys es)[i]? = ((activeEntries es)[i]?).map Prod.fst := by
  simp [activeKeys]

/-! ## The commands on a store whose bucket exists -/

theorem updateTaskList_some (b : Bucket) :
    Main.updateTaskList (some b) = .ok (activeKeys b.entries) := by
  simp [Main.updateTaskList, foldl_rebuildStep]

theorem List_some (b : Bucket) (cache : KeyList) :
    Main.List (some b) cache =
      { store := some b, taskList := activeKeys b.entries,
        out := numberedLines 1 (activeEntries b.entries), err := none } := by
  simp [Main.List, foldl_listStep]

theorem Completed_some (b : Bucket) (cache : KeyList) (now : Time) :
    Main.Completed (some b) cache now =
      { store := some b, taskList := cache,
        out := "This task(s) was completed today:\n" ::
          (b.entries.filter (completedShown now)).map (fun kv => kv.2.Description ++ "\n"),
        err := none } := by
  simp [Main.Completed, foldl_completedStep]

theorem Do_resolved (b : Bucket) (cache : KeyList) (n : Nat) (now : Time) (k : Key)
    (r : TaskRecord) (hn : 1 ≤ n) (hk : cache[n - 1]? = some k) (hget : b.Get k = some r) :
    Main.Do (some b) cache n now =
      { store := some (b.Put k { r with IsActive := false, FinishedAt := now }),
        taskList := cache,
        out := ["You have completed the " ++ r.Description ++ " task."], err := none } := by
  have hlen : n - 1 < cache.length := by
    rcases Nat.lt_or_ge (n - 1) cache.length with h | h
    · exact h
    · rw [List.getElem?_eq_none h] at hk; exact Option.noConfusion hk
  have hne : ¬ cache.length = 0 := by omega
  have hidx : ¬ ((n : Int) - 1 < 0 ∨ (cache.length : Int) ≤ (n : Int) - 1) := by omega
  have htn : ((n : Int) - 1).toNat = n - 1 := by omega
  simp only [Main.Do, hne, if_false, hidx, htn, List.getD_eq_getElem?_getD, hk,
    Option.getD_some, hget]

theorem Remove_resolved (b : Bucket) (cache : KeyList) (n : Nat) (k : Key)
    (hn : 1 ≤ n) (hk : cache[n - 1]? = some k) :
    Main.Remove (some b) cache n =
      { store := some (b.Delete k), taskList := cache, out := [], err := none } := by
  have hlen : n - 1 < cache.length := by
    rcases Nat.lt_or_ge (n - 1) cache.length with h | h
    · exact h
    · rw [List.getElem?_eq_none h] at hk; exact Option.noConfusion hk
  have hne : ¬ cache.length = 0 := by omega
  have hidx : ¬ ((n : Int) - 1 < 0 ∨ (cache.length : Int) ≤ (n : Int) - 1) := by omega
  have htn : ((n : Int) - 1).toNat = n - 1 := by omega
  simp only [Main.Remove, hne, if_false, hidx, htn, List.getD_eq_getElem?_getD, hk,
    Option.getD_some]

theorem Do_rebuilt (b : Bucket) (n : Int) (now : Time) :
    (activeKeys b.entries ≠ [] ∧
        Main.Do (some b) [] n now = Main.Do (some b) (activeKeys b.entries) n now) ∨
      (activeKeys b.entries = [] ∧
        Main.Do (some b) [] n now =
          { store := some b, taskList := [], out := [], err := some .indexOutOfRange }) := by
  by_cases h : activeKeys b.entries = []
  · right
    refine ⟨h, ?_⟩
    simp only [Main.Do, List.length_nil, if_true, updateTaskList_some, h]
    have : (n - 1 < 0 ∨ ((0 : Nat) : Int) ≤ n - 1) := by omega
    simp [this]
  · left
    refine ⟨h, ?_⟩
    have hlen : ¬ (activeKeys b.entries).length = 0 := by
      intro h0; exact h (List.length_eq_zero.mp h0)
    simp only [Main.Do, List.length_nil, if_true, updateTaskList_some, hlen, if_false]

theorem Remove_rebuilt (b : Bucket) (n : Int) :
    (activeKeys b.entries ≠ [] ∧
        Main.Remove (some b) [] n = Main.Remove (some b) (activeKeys b.entries) n) ∨
      (activeKeys b.entries = [] ∧
        Main.Remove (some b) [] n =
          { store := some b, taskList := [], out := [], err := some .indexOutOfRange }) := by
  by_cases h : activeKeys b.entries = []
  · right
    refine ⟨h, ?_⟩
    simp only [Main.Remove, List.length_nil, if_true, updateTaskList_some, h]
    have : (n - 1 < 0 ∨ ((0 : Nat) : Int) ≤ n - 1) := by omega
    simp [this]
  · left
    refine ⟨h, ?_⟩
    have hlen : ¬ (activeKeys b.entries).length = 0 := by
      intro h0; exact h (List.length_eq_zero.mp h0)
    simp only [Main.Remove, List.length_nil, if_true, updateTaskList_some, hlen, if_false]

/-! ## Claims about single commands -/

/-- C1: on a store whose bucket exists, with `taskList` empty and a position `n`
with `1 ≤ n ≤` number of active records, `Do n` succeeds; the record under the
n-th active key `k` (iteration order, which is ascending key order) becomes
inactive with `FinishedAt = now` and the description it had; every other key
maps to what it mapped to before; a following `List` prints the previous
listing without its n-th entry, numbered again from 1. -/
theorem Do_marks_nth_active_completed (b : Bucket) (n : Nat) (now : Time) (hwf : b.WF)
    (h1 : 1 ≤ n) (h2 : n ≤ (activeEntries b.entries).length) :
    ∃ (k : Key) (r : TaskRecord),
      (activeEntries b.entries)[n - 1]? = some (k, r) ∧
      (activeKeys b.entries).Pairwise (fun a c => bytesLess a c = true) ∧
      b.Get k = some r ∧
      (Main.Do (some b) [] n now).err = none ∧
      Store.get (Main.Do (some b) [] n now).store k =
        some { IsActive := false, Description := r.Description, FinishedAt := now } ∧
      (∀ k2 : Key, k2 ≠ k → Store.get (Main.Do (some b) [] n now).store k2 = b.Get k2) ∧
      (Main.List (some b) []).out = numberedLines 1 (activeEntries b.entries) ∧
      (Main.List (Main.Do (some b) [] n now).store (Main.Do (some b) [] n now).taskList).out =
        numberedLines 1 ((activeEntries b.entries).eraseIdx (n - 1)) := by
  have hlt : n - 1 < (activeEntries b.entries).length := by omega
  rcases hkr : (activeEntries b.entries)[n - 1] with ⟨k, r⟩
  have hk : (activeEntries b.entries)[n - 1]? = some (k, r) := by
    rw [List.getElem?_eq_getElem hlt, hkr]
  have hget : b.Get k = some r := getEntries_active hwf hk
  have hkey : (activeKeys b.entries)[n - 1]? = some k := by
    rw [activeKeys_getElem?, hk]; rfl
  have hne : activeKeys b.entries ≠ [] := by
    intro h0; rw [h0] at hkey; simp at hkey
  have hdo : Main.Do (some b) [] n now =
      { store := some (b.Put k { r with IsActive := false, FinishedAt := now }),
        taskList := activeKeys b.entries,
        out := ["You have completed the " ++ r.Description ++ " task."], err := none } := by
    rcases Do_rebuilt b n now with h | h
    · rw [h.2]; exact Do_resolved b _ n now k r h1 hkey hget
    · exact absurd h.1 hne
  refine ⟨k, r, hk, activeKeys_pairwise hwf, hget, ?_, ?_, ?_, ?_, ?_⟩
  · rw [hdo]
  · rw [hdo]
    simp only [Store.get, Bucket.Get, Bucket.Put]
    exact getEntries_put_same _ _ _
  · intro k2 hk2
    rw [hdo]
    simp only [Store.get, Bucket.Get, Bucket.Put]
    exact getEntries_put_other _ _ _ _ hk2
  · rw [List_some]
  · rw [hdo, List_some]
    simp only [Bucket.Put]
    rw [activeEntries_put _ rfl hwf hk]

/-- Instance of C1: two active tasks `a` and `b`, `Do 1`. -/
theorem Do_marks_nth_active_completed_witness :
    sampleTwo.WF ∧ 1 ≤ 1 ∧ 1 ≤ (activeEntries sampleTwo.entries).length ∧
    ∃ (k : Key) (r : TaskRecord),
      (activeEntries sampleTwo.entries)[1 - 1]? = some (k, r) ∧
      (activeKeys sampleTwo.entries).Pairwise (fun a c => bytesLess a c = true) ∧
      sampleTwo.Get k = some r ∧
      (Main.Do (some sampleTwo) [] (1 : Nat) ⟨7⟩).err = none ∧
      Store.get (Main.Do (some sampleTwo) [] (1 : Nat) ⟨7⟩).store k =
        some { IsActive := false, Description := r.Description, FinishedAt := ⟨7⟩ } ∧
      (∀ k2 : Key, k2 ≠ k →
        Store.get (Main.Do (some sampleTwo) [] (1 : Nat) ⟨7⟩).store k2 = sampleTwo.Get k2) ∧
      (Main.List (some sampleTwo) []).out = numberedLines 1 (activeEntries sampleTwo.entries) ∧
      (Main.List (Main.Do (some sampleTwo) [] (1 : Nat) ⟨7⟩).store
        (Main.Do (some sampleTwo) [] (1 : Nat) ⟨7⟩).taskList).out =
        numberedLines 1 ((activeEntries sampleTwo.entries).eraseIdx (1 - 1)) :=
  ⟨by decide, by decide, by decide,
    Do_marks_nth_active_completed sampleTwo 1 ⟨7⟩ (by decide) (by decide) (by decide)⟩


/-- C2: on a store whose bucket exists, with `taskList` empty and a position `n`
with `1 ≤ n ≤` number of active records, `Remove n` succeeds; the n-th active
key `k` (iteration order, which is ascending key order) is absent afterwards and
every other key maps to what it mapped to before; a following `List` prints the
previous listing without its n-th entry, and prints nothing when that task was
the only active one. -/
theorem Remove_deletes_nth_active (b : Bucket) (n : Nat) (hwf : b.WF)
    (h1 : 1 ≤ n) (h2 : n ≤ (activeEntries b.entries).length) :
    ∃ (k : Key) (r : TaskRecord),
      (activeEntries b.entries)[n - 1]? = some (k, r) ∧
      (activeKeys b.entries).Pairwise (fun a c => bytesLess a c = true) ∧
      b.Get k = some r ∧
      (Main.Remove (some b) [] n).err = none ∧
      Store.get (Main.Remove (some b) [] n).store k = none ∧
      (∀ k2 : Key, k2 ≠ k → Store.get (Main.Remove (some b) [] n).store k2 = b.Get k2) ∧
      (Main.List (Main.Remove (some b) [] n).store (Main.Remove (some b) [] n).taskList).out =
        numberedLines 1 ((activeEntries b.entries).eraseIdx (n - 1)) ∧
      ((activeEntries b.entries).length = 1 →
        (Main.List (Main.Remove (some b) [] n).store
          (Main.Remove (some b) [] n).taskList).out = []) := by
  have hlt : n - 1 < (activeEntries b.entries).length := by omega
  rcases hkr : (activeEntries b.entries)[n - 1] with ⟨k, r⟩
  have hk : (activeEntries b.entries)[n - 1]? = some (k, r) := by
    rw [List.getElem?_eq_getElem hlt, hkr]
  have hget : b.Get k = some r := getEntries_active hwf hk
  have hkey : (activeKeys b.entries)[n - 1]? = some k := by
    rw [activeKeys_getElem?, hk]; rfl
  have hne : activeKeys b.entries ≠ [] := by
    intro h0; rw [h0] at hkey; simp at hkey
  have hrm : Main.Remove (some b) [] n =
      { store := some (b.Delete k), taskList := activeKeys b.entries, out := [],
        err := none } := by
    rcases Remove_rebuilt b n with h | h
    · rw [h.2]; exact Remove_resolved b _ n k h1 hkey
    · exact absurd h.1 hne
  have hlist : (Main.List (Main.Remove (some b) [] n).store
      (Main.Remove (some b) [] n).taskList).out =
        numberedLines 1 ((activeEntries b.entries).eraseIdx (n - 1)) := by
    rw [hrm, List_some]
    simp only [Bucket.Delete]
    rw [activeEntries_delete hwf hk]
  refine ⟨k, r, hk, activeKeys_pairwise hwf, hget, ?_, ?_, ?_, hlist, ?_⟩
  · rw [hrm]
  · rw [hrm]
    simp only [Store.get, Bucket.Get, Bucket.Delete]
    exact getEntries_delete_same _ hwf
  · intro k2 hk2
    rw [hrm]
    simp only [Store.get, Bucket.Get, Bucket.Delete]
    exact getEntries_delete_other _ _ _ hk2
  · intro hone
    rw [hlist]
    have hlen : ((activeEntries b.entries).eraseIdx (n - 1)).length = 0 := by
      rw [List.length_eraseIdx, if_pos hlt, hone]
    rw [List.length_eq_zero.mp hlen]
    rfl

/-- Instance of C2: one completed and one active task, `Remove 1`. -/
theorem Remove_deletes_nth_active_witness :
    sampleMixed.WF ∧ 1 ≤ 1 ∧ 1 ≤ (activeEntries sampleMixed.entries).length ∧
    ∃ (k : Key) (r : TaskRecord),
      (activeEntries sampleMixed.entries)[1 - 1]? = some (k, r) ∧
      (activeKeys sampleMixed.entries).Pairwise (fun a c => bytesLess a c = true) ∧
      sampleMixed.Get k = some r ∧
      (Main.Remove (some sampleMixed) [] (1 : Nat)).err = none ∧
      Store.get (Main.Remove (some sampleMixed) [] (1 : Nat)).store k = none ∧
      (∀ k2 : Key, k2 ≠ k →
        Store.get (Main.Remove (some sampleMixed) [] (1 : Nat)).store k2 =
          sampleMixed.Get k2) ∧
      (Main.List (Main.Remove (some sampleMixed) [] (1 : Nat)).store
        (Main.Remove (some sampleMixed) [] (1 : Nat)).taskList).out =
        numberedLines 1 ((activeEntries sampleMixed.entries).eraseIdx (1 - 1)) ∧
      ((activeEntries sampleMixed.entries).length = 1 →
        (Main.List (Main.Remove (some sampleMixed) [] (1 : Nat)).store
          (Main.Remove (some sampleMixed) [] (1 : Nat)).taskList).out = []) :=
  ⟨by decide, by decide, by decide,
    Remove_deletes_nth_active sampleMixed 1 (by decide) (by decide) (by decide)⟩

/-- C3: on a store whose bucket exists, whatever `taskList` held before, `List`
succeeds and leaves the store alone; it prints one line per active record, the
line at index `i` being `i+1`, a dot, a blank, the description of the record at
index `i` among the active records in iteration order (ascending key order) and
a newline; `taskList` becomes the keys of exactly these records in that order,
so its length is the number of active records; `updateTaskList` builds the same
`taskList`. -/
theorem List_numbering_matches_cache (b : Bucket) (cache : KeyList) (hwf : b.WF) :
    (Main.List (some b) cache).err = none ∧
    (Main.List (some b) cache).store = some b ∧
    (Main.List (some b) cache).out.length =
      (b.entries.filter (fun kv => kv.2.IsActive)).length ∧
    (∀ (i : Nat) (kv : Key × TaskRecord),
      (b.entries.filter (fun kv => kv.2.IsActive))[i]? = some kv →
      (Main.List (some b) cache).out[i]? =
        some (toString (i + 1) ++ ". " ++ kv.2.Description ++ "\n")) ∧
    (Main.List (some b) cache).taskList =
      (b.entries.filter (fun kv => kv.2.IsActive)).map Prod.fst ∧
    (Main.List (some b) cache).taskList.length =
      (b.entries.filter (fun kv => kv.2.IsActive)).length ∧
    (Main.List (some b) cache).taskList.Pairwise (fun a c => bytesLess a c = true) ∧
    Main.updateTaskList (some b) = .ok (Main.List (some b) cache).taskList := by
  rw [List_some, updateTaskList_some]
  refine ⟨rfl, rfl, ?_, ?_, rfl, ?_, activeKeys_pairwise hwf, rfl⟩
  · exact numberedLines_length _ _
  · intro i kv hkv
    show (numberedLines 1 (activeEntries b.entries))[i]? = _
    rw [numberedLines_getElem?]
    have : (activeEntries b.entries)[i]? = some kv := hkv
    rw [this, Nat.add_comm 1 i]
    rfl
  · show (activeKeys b.entries).length = _
    simp [activeKeys, activeEntries]

/-- Instance of C3: one completed and one active task, a stale `taskList`. -/
theorem List_numbering_matches_cache_witness :
    sampleMixed.WF ∧
    (Main.List (some sampleMixed) [itob 1]).err = none ∧
    (Main.List (some sampleMixed) [itob 1]).store = some sampleMixed ∧
    (Main.List (some sampleMixed) [itob 1]).out.length =
      (sampleMixed.entries.filter (fun kv => kv.2.IsActive)).length ∧
    (∀ (i : Nat) (kv : Key × TaskRecord),
      (sampleMixed.entries.filter (fun kv => kv.2.IsActive))[i]? = some kv →
      (Main.List (some sampleMixed) [itob 1]).out[i]? =
        some (toString (i + 1) ++ ". " ++ kv.2.Description ++ "\n")) ∧
    (Main.List (some sampleMixed) [itob 1]).taskList =
      (sampleMixed.entries.filter (fun kv => kv.2.IsActive)).map Prod.fst ∧
    (Main.List (some sampleMixed) [itob 1]).taskList.length =
      (sampleMixed.entries.filter (fun kv => kv.2.IsActive)).length ∧
    (Main.List (some sampleMixed) [itob 1]).taskList.Pairwise
      (fun a c => bytesLess a c = true) ∧
    Main.updateTaskList (some sampleMixed) =
      .ok (Main.List (some sampleMixed) [itob 1]).taskList :=
  ⟨by decide, List_numbering_matches_cache sampleMixed [itob 1] (by decide)⟩

/-- C5: on a store whose bucket exists, with `taskList` empty, a position below 1
or above the number of active records makes `Do` end in the index fault, with
nothing printed and the store exactly as it was. -/
theorem Do_out_of_range_is_fatal (b : Bucket) (n : Int) (now : Time)
    (hn : n < 1 ∨ ((activeEntries b.entries).length : Int) < n) :
    (Main.Do (some b) [] n now).err = some Fault.indexOutOfRange ∧
    (Main.Do (some b) [] n now).store = some b ∧
    (Main.Do (some b) [] n now).out = [] := by
  rcases Do_rebuilt b n now with h | h
  · rw [h.2]
    have hlen : (activeKeys b.entries).length = (activeEntries b.entries).length := by
      simp [activeKeys]
    have hidx : n - 1 < 0 ∨ ((activeKeys b.entries).length : Int) ≤ n - 1 := by
      rw [hlen]; omega
    by_cases hz : (activeKeys b.entries).length = 0
    · have hidx0 : n - 1 < 0 ∨ ((0 : Nat) : Int) ≤ n - 1 := by omega
      simp only [Main.Do, hz, if_true, updateTaskList_some, hidx0, and_self]
    · simp only [Main.Do, hz, if_false, hidx, if_true, and_self]
  · rw [h.2]
    exact ⟨rfl, rfl, rfl⟩

/-- Instance of C5: `Do 5` with two active tasks. -/
theorem Do_out_of_range_is_fatal_witness :
    ((5 : Int) < 1 ∨ ((activeEntries sampleTwo.entries).length : Int) < 5) ∧
    (Main.Do (some sampleTwo) [] 5 ⟨7⟩).err = some Fault.indexOutOfRange ∧
    (Main.Do (some sampleTwo) [] 5 ⟨7⟩).store = some sampleTwo ∧
    (Main.Do (some sampleTwo) [] 5 ⟨7⟩).out = [] :=
  ⟨by decide, Do_out_of_range_is_fatal sampleTwo 5 ⟨7⟩ (by decide)⟩

/-- C6, as stated, fails: with the bucket absent `List` does not return without
an error. -/
theorem List_absent_bucket_not_ok :
    ¬ ((Main.List none []).out = [] ∧ (Main.List none []).taskList = [] ∧
      (Main.List none []).err = none) := by
  decide

/-- C6, amended: with the bucket absent, whatever `taskList` held, `List` prints
nothing, leaves `taskList` empty and the store without a bucket, and ends in the
nil bucket fault. -/
theorem List_absent_bucket_faults (cache : KeyList) :
    (Main.List none cache).out = [] ∧ (Main.List none cache).taskList = [] ∧
    (Main.List none cache).store = none ∧
    (Main.List none cache).err = some Fault.nilBucket :=
  ⟨rfl, rfl, rfl, rfl⟩

/-- C7 at the failing input: a task completed on the 20th of October 2026 is
printed by `Completed` on the 5th of November 2026, a different day of the
month; the active task is not printed. -/
theorem Completed_prints_earlier_month :
    Time.Day ⟨63928051200000000000⟩ = 20 ∧ Time.Day ⟨63929433600000000000⟩ = 5 ∧
    sampleMixed.entries = [(itob 1, ⟨false, "y", ⟨63928051200000000000⟩⟩),
      (itob 2, ⟨true, "x", Time.zero⟩)] ∧
    (Main.Completed (some sampleMixed) [] ⟨63929433600000000000⟩).out =
      ["This task(s) was completed today:\n", "y\n"] := by
  decide

/-- What `Completed` prints on a store whose bucket exists: the header, then the
description of every inactive record whose `FinishedAt` day of the month is not
below that of `now`, in iteration order. -/
theorem Completed_output (b : Bucket) (cache : KeyList) (now : Time) :
    (Main.Completed (some b) cache now).out =
      "This task(s) was completed today:\n" ::
        (b.entries.filter
          (fun kv => !kv.2.IsActive && decide (now.Day ≤ kv.2.FinishedAt.Day))).map
          (fun kv => kv.2.Description ++ "\n") := by
  rw [Completed_some]
  have : completedShown now =
      fun kv => !kv.2.IsActive && decide (now.Day ≤ kv.2.FinishedAt.Day) := by
    funext kv
    simp only [completedShown]
    congr 1
    simp only [decide_eq_decide]
    omega
  rw [this]

theorem Store.get_eq (s : Store) (k : Key) : Store.get s k = getEntries s.entries k := by
  cases s with
  | none => rfl
  | some b => rfl

/-! ## Go strings and the text that `json.Marshal` stores -/

theorem decodeTail_width_pos (s0 sz lo hi : Nat) (t : GoString) :
    1 ≤ (decodeTail s0 sz lo hi t).2 := by
  unfold decodeTail
  repeat' split
  all_goals simp

theorem decodeRune_width_pos (b : Nat) (t : GoString) : 1 ≤ (decodeRune (b :: t)).2 := by
  simp only [decodeRune]
  split
  · simp
  · split
    · simp
    · exact decodeTail_width_pos _ _ _ _ _

theorem decodeRune_encodeRune (c : Nat) (rest : GoString)
    (hc : c < 0xD800 ∨ (0xDFFF < c ∧ c < 0x110000)) :
    decodeRune (encodeRune c ++ rest) = (c, (encodeRune c).length) := by
  unfold encodeRune
  split_ifs with h1 h2 h3
  · simp [decodeRune, h1]
  · have a1 : ¬ (0xC0 + c / 64 < 0x80) := by omega
    have a2 : ¬ (0xC0 + c / 64 < 0xC2 ∨ 0xF4 < 0xC0 + c / 64) := by omega
    have a3 : runeSize (0xC0 + c / 64) = 2 := by unfold runeSize; split_ifs <;> omega
    have a4 : acceptLo (0xC0 + c / 64) = 0x80 := by unfold acceptLo; split_ifs <;> omega
    have a5 : acceptHi (0xC0 + c / 64) = 0xBF := by unfold acceptHi; split_ifs <;> omega
    have a8 : ¬ (0x80 + c % 64 < 0x80 ∨ 0xBF < 0x80 + c % 64) := by omega
    have a9 : ¬ (rest.length + 1 + 1 < 2) := by omega
    simp only [decodeRune, List.cons_append, List.nil_append, a1, a2, a3, a4, a5, a8, a9,
      decodeTail, if_false, List.length_cons, le_refl, if_true, List.length_nil, Prod.mk.injEq]
    exact ⟨by omega, trivial⟩
  · have a1 : ¬ (0xE0 + c / 4096 < 0x80) := by omega
    have a2 : ¬ (0xE0 + c / 4096 < 0xC2 ∨ 0xF4 < 0xE0 + c / 4096) := by omega
    have a3 : runeSize (0xE0 + c / 4096) = 3 := by unfold runeSize; split_ifs <;> omega
    have a4 : ¬ (0x80 + c / 64 % 64 < acceptLo (0xE0 + c / 4096) ∨
        acceptHi (0xE0 + c / 4096) < 0x80 + c / 64 % 64) := by
      unfold acceptLo acceptHi; split_ifs <;> omega
    have a8 : ¬ (0x80 + c % 64 < 0x80 ∨ 0xBF < 0x80 + c % 64) := by omega
    have a9 : ¬ (rest.length + 1 + 1 + 1 < 3) := by omega
    have a10 : ¬ (3 ≤ 2) := by omega
    simp only [decodeRune, List.cons_append, List.nil_append, a1, a2, a3, a4, a8, a9, a10,
      decodeTail, if_false, List.length_cons, le_refl, if_true, List.length_nil, Prod.mk.injEq]
    exact ⟨by omega, trivial⟩
  · have a1 : ¬ (0xF0 + c / 262144 < 0x80) := by omega
    have a2 : ¬ (0xF0 + c / 262144 < 0xC2 ∨ 0xF4 < 0xF0 + c / 262144) := by omega
    have a3 : runeSize (0xF0 + c / 262144) = 4 := by unfold runeSize; split_ifs <;> omega
    have a4 : ¬ (0x80 + c / 4096 % 64 < acceptLo (0xF0 + c / 262144) ∨
        acceptHi (0xF0 + c / 262144) < 0x80 + c / 4096 % 64) := by
      unfold acceptLo acceptHi; split_ifs <;> omega
    have a7 : ¬ (0x80 + c / 64 % 64 < 0x80 ∨ 0xBF < 0x80 + c / 64 % 64) := by omega
    have a8 : ¬ (0x80 + c % 64 < 0x80 ∨ 0xBF < 0x80 + c % 64) := by omega
    have a9 : ¬ (rest.length + 1 + 1 + 1 + 1 < 4) := by omega
    have a10 : ¬ (4 ≤ 2) := by omega
    have a11 : ¬ (4 ≤ 3) := by omega
    simp only [decodeRune, List.cons_append, List.nil_append, a1, a2, a3, a4, a7, a8, a9, a10,
      a11, decodeTail, if_false, List.length_cons, le_refl, if_true, List.length_nil,
      Prod.mk.injEq]
    exact ⟨by omega, trivial⟩

/-- Fuel equal to the length of the byte string is enough: any larger fuel gives
the same text. -/
theorem toValidAux_fuel (fuel1 fuel2 : Nat) (s : GoString) (h1 : s.length ≤ fuel1)
    (h2 : s.length ≤ fuel2) : toValidAux fuel1 s = toValidAux fuel2 s := by
  induction fuel1 generalizing fuel2 s with
  | zero =>
    have : s = [] := List.length_eq_zero.mp (by omega)
    subst this
    cases fuel2 <;> rfl
  | succ n ih =>
    cases s with
    | nil => cases fuel2 <;> rfl
    | cons b t =>
      cases fuel2 with
      | zero => simp at h2
      | succ m =>
        have hw := decodeRune_width_pos b t
        have hlen : ((b :: t).drop (decodeRune (b :: t)).2).length ≤ t.length := by
          rw [List.length_drop, List.length_cons]; omega
        simp only [List.length_cons] at h1 h2
        simp only [toValidAux]
        rw [ih m _ (by omega) (by omega)]

theorem toValidAux_encode (c : Char) (rest : GoString) (fuel : Nat)
    (h : (encodeRune c.toNat ++ rest).length ≤ fuel) :
    toValidAux fuel (encodeRune c.toNat ++ rest) = c :: toValidAux rest.length rest := by
  have hc : c.toNat < 0xD800 ∨ (0xDFFF < c.toNat ∧ c.toNat < 0x110000) := by
    have := c.valid
    simp only [UInt32.isValidChar, Nat.isValidChar] at this
    exact this
  have hd := decodeRune_encodeRune c.toNat rest hc
  have hne : 1 ≤ (encodeRune c.toNat).length := by
    unfold encodeRune; split_ifs <;> simp
  cases hs : encodeRune c.toNat ++ rest with
  | nil =>
    have : (encodeRune c.toNat ++ rest).length = 0 := by rw [hs]; rfl
    rw [List.length_append] at this; omega
  | cons b t =>
    cases fuel with
    | zero => rw [hs] at h; simp at h
    | succ n =>
      rw [← hs]
      have hlen : (encodeRune c.toNat ++ rest).length ≤ n + 1 := h
      rw [List.length_append] at hlen
      rw [hs]
      simp only [toValidAux]
      rw [← hs, hd, List.drop_left, Char.ofNat_toNat]
      rw [toValidAux_fuel n rest.length rest (by omega) (le_refl _)]

theorem jsonText_goString (s : String) : jsonText (goString s) = s := by
  have key : ∀ cs : List Char,
      toValidAux (cs.flatMap (fun c => encodeRune c.toNat)).length
        (cs.flatMap (fun c => encodeRune c.toNat)) = cs := by
    intro cs
    induction cs with
    | nil => rfl
    | cons c t ih =>
      simp only [List.flatMap_cons]
      rw [toValidAux_encode c _ _ (le_refl _), ih]
  unfold jsonText goString
  rw [key]

theorem goString_append (a b : String) : goString (a ++ b) = goString a ++ goString b := by
  simp [goString, List.flatMap_append]

theorem goString_intercalate_go (acc : String) (l : List String) :
    goString (String.intercalate.go acc " " l) =
      (l.map goString).foldl (fun acc s => acc ++ [32] ++ s) (goString acc) := by
  induction l generalizing acc with
  | nil => rfl
  | cons a t ih =>
    simp only [String.intercalate.go, List.map_cons, List.foldl_cons]
    rw [ih, goString_append, goString_append]
    rfl

theorem joinArgs_goString (texts : List String) :
    joinArgs (texts.map goString) = goString (String.intercalate " " texts) := by
  cases texts with
  | nil => rfl
  | cons a t =>
    simp only [List.map_cons, joinArgs, String.intercalate]
    rw [goString_intercalate_go]

theorem jsonText_joinArgs (texts : List String) :
    jsonText (joinArgs (texts.map goString)) = String.intercalate " " texts := by
  rw [joinArgs_goString, jsonText_goString]

/-! ## `Add` and the sequence counter -/

theorem itob_intOfUint64 (u : Nat) :
    itob (intOfUint64 u) = itob ((u % 2 ^ 64 : Nat) : Int) := by
  have h1 := uint64_intOfUint64 u
  have h2 : (((u % 2 ^ 64 : Nat) : Int) % 2 ^ 64).toNat = u % 2 ^ 64 := by omega
  simp only [itob, h1, h2]

theorem bytesLess_itob_nat {i j : Nat} (hij : i < j) (hj : j < 2 ^ 64) :
    bytesLess (itob (i : Int)) (itob (j : Int)) = true := by
  apply bytesLess_itob
  omega

theorem putEntries_append (es : List (Key × TaskRecord)) (k : Key) (v : TaskRecord)
    (h : ∀ k2 ∈ es.map Prod.fst, bytesLess k2 k = true) :
    putEntries es k v = es ++ [(k, v)] := by
  induction es with
  | nil => rfl
  | cons hd t ih =>
    obtain ⟨k0, v0⟩ := hd
    have h0 : bytesLess k0 k = true := h k0 (by simp)
    have hne : k ≠ k0 := fun e => bytesLess_ne h0 e.symm
    have ht : ∀ k2 ∈ t.map Prod.fst, bytesLess k2 k = true :=
      fun k2 hk2 => h k2 (List.mem_cons_of_mem _ hk2)
    simp [putEntries, hne, bytesLess_asymm h0, ih ht]

theorem Add_eq (s : Store) (cache : KeyList) (args : List GoString)
    (hseq : s.sequence + 1 < 2 ^ 64) :
    Main.Add s cache args =
      { store := some
          { sequence := s.sequence + 1,
            entries := putEntries s.entries (itob ((s.sequence + 1 : Nat) : Int))
              { IsActive := true, Description := jsonText (joinArgs args),
                FinishedAt := Time.zero } },
        taskList := cache, out := [], err := none } := by
  have hmod : (s.sequence + 1) % 2 ^ 64 = s.sequence + 1 := Nat.mod_eq_of_lt hseq
  have hmod2 : (Store.sequence s + 1) % 2 ^ 64 % 2 ^ 64 = s.sequence + 1 := by
    rw [hmod, hmod]
  simp only [Main.Add, Bucket.NextSequence, Bucket.Put, itob_intOfUint64]
  unfold Store.sequence Store.entries at *
  rw [hmod2, hmod]

theorem issued_keys_below_next {s : Store} (hs : s.Consistent)
    (hseq : s.sequence + 1 < 2 ^ 64) :
    ∀ k2 ∈ s.entries.map Prod.fst,
      bytesLess k2 (itob ((s.sequence + 1 : Nat) : Int)) = true := by
  intro k2 hk2
  obtain ⟨kv, hkv, rfl⟩ := List.mem_map.mp hk2
  obtain ⟨i, hi, hki⟩ := hs.2 kv hkv
  rw [hki]
  exact bytesLess_itob_nat (by omega) hseq

theorem Add_appends (s : Store) (cache : KeyList) (args : List GoString)
    (hs : s.Consistent) (hseq : s.sequence + 1 < 2 ^ 64) :
    Main.Add s cache args =
      { store := some
          { sequence := s.sequence + 1,
            entries := s.entries ++ [(itob ((s.sequence + 1 : Nat) : Int),
              { IsActive := true, Description := jsonText (joinArgs args),
                FinishedAt := Time.zero })] },
        taskList := cache, out := [], err := none } := by
  rw [Add_eq s cache args hseq, putEntries_append _ _ _ (issued_keys_below_next hs hseq)]

theorem Add_consistent (s : Store) (cache : KeyList) (args : List GoString)
    (hs : s.Consistent) (hseq : s.sequence + 1 < 2 ^ 64) :
    (Main.Add s cache args).store.Consistent := by
  rw [Add_eq s cache args hseq]
  refine ⟨pairwise_keys_put _ _ hs.1, ?_⟩
  intro kv hkv
  have hmem : kv.1 ∈ (putEntries s.entries (itob ((s.sequence + 1 : Nat) : Int))
      { IsActive := true, Description := jsonText (joinArgs args),
        FinishedAt := Time.zero }).map Prod.fst := List.mem_map.mpr ⟨kv, hkv, rfl⟩
  rcases mem_keys_put hmem with h | h
  · exact ⟨s.sequence, Nat.lt_succ_self _, h⟩
  · obtain ⟨kv2, hkv2, hk⟩ := List.mem_map.mp h
    obtain ⟨i, hi, hki⟩ := hs.2 kv2 hkv2
    exact ⟨i, Nat.lt_succ_of_lt hi, by rw [← hk, hki]⟩

/-- On any store at all, `Add` writes its record under the new key and leaves
every other key as it was; the data model is only needed to know that the new
key was not in use. -/
theorem Add_frame_any_store (s : Store) (cache : KeyList) (args : List GoString) :
    Store.get (Main.Add s cache args).store
        (itob (intOfUint64 (CreateBucketIfNotExists s).NextSequence.1)) =
      some { IsActive := true, Description := jsonText (joinArgs args),
             FinishedAt := Time.zero } ∧
    (∀ k : Key, k ≠ itob (intOfUint64 (CreateBucketIfNotExists s).NextSequence.1) →
      Store.get (Main.Add s cache args).store k = Store.get s k) := by
  have hget : ∀ k : Key, Store.get s k = getEntries s.entries k := by
    intro k
    cases s with
    | none => rfl
    | some b => rfl
  refine ⟨getEntries_put_same _ _ _, ?_⟩
  intro k hk
  rw [hget]
  exact getEntries_put_other _ _ _ _ hk

/-- In a store that meets its data model, with the counter below its 64-bit
limit, nothing is stored yet under the key of the next sequence number. -/
theorem next_key_fresh (s : Store) (hs : s.Consistent) (hseq : s.sequence + 1 < 2 ^ 64) :
    Store.get s (itob (intOfUint64 (CreateBucketIfNotExists s).NextSequence.1)) = none := by
  have hnext : (CreateBucketIfNotExists s).NextSequence.1 = s.sequence + 1 := by
    simp only [Bucket.NextSequence]
    exact Nat.mod_eq_of_lt hseq
  rw [hnext, itob_intOfUint64, Nat.mod_eq_of_lt hseq, Store.get_eq]
  apply getEntries_none_of_not_mem
  intro hmem
  exact bytesLess_ne (issued_keys_below_next hs hseq _ hmem) rfl

/-- C4, as stated, fails twice.  On a store whose counter stands at 0 while key 1
is in use, `Add` replaces the record stored under key 1.  And for the argument
consisting of the single byte `0xFF` the stored description is U+FFFD, whose
bytes are not the joined arguments. -/
theorem Add_overwrites_and_rewrites :
    (Store.get (some sampleUsedKey) (itob 1) = some ⟨false, "old", ⟨5⟩⟩ ∧
      Store.get (Main.Add (some sampleUsedKey) [] [goString "new"]).store (itob 1) =
        some ⟨true, "new", Time.zero⟩) ∧
    (Store.get (Main.Add none [] [[255]]).store (itob 1) =
        some ⟨true, String.mk [Char.ofNat 0xFFFD], Time.zero⟩ ∧
      goString (String.mk [Char.ofNat 0xFFFD]) = [0xEF, 0xBF, 0xBD] ∧
      joinArgs [[255]] = [255]) := by
  decide

/-- C4, amended: on every store, bucket present or absent, in which nothing is
stored under the key of the next sequence number, and for every `taskList` and
argument list, `Add` succeeds and leaves `taskList` alone; the bucket exists
afterwards; the key is `itob` of the next sequence number, which is 8 bytes long
and reads big endian as that number; under it lies the active record with
`FinishedAt` zero whose description is the text that `json.Marshal` stores for
the arguments joined by single blanks, which is the joined text itself when the
arguments are valid UTF-8; every key stored before maps to the record it mapped
to. -/
theorem Add_creates_one_active_record (s : Store) (cache : KeyList) (args : List GoString)
    (hfresh :
      Store.get s (itob (intOfUint64 (CreateBucketIfNotExists s).NextSequence.1)) = none) :
    (Main.Add s cache args).err = none ∧
    (Main.Add s cache args).taskList = cache ∧
    (Main.Add s cache args).store.isSome = true ∧
    (CreateBucketIfNotExists s).NextSequence.1 = (s.sequence + 1) % 2 ^ 64 ∧
    (itob (intOfUint64 (CreateBucketIfNotExists s).NextSequence.1)).length = 8 ∧
    (∀ c ∈ itob (intOfUint64 (CreateBucketIfNotExists s).NextSequence.1), c < 256) ∧
    beValue (itob (intOfUint64 (CreateBucketIfNotExists s).NextSequence.1)) =
      (s.sequence + 1) % 2 ^ 64 ∧
    Store.get (Main.Add s cache args).store
        (itob (intOfUint64 (CreateBucketIfNotExists s).NextSequence.1)) =
      some { IsActive := true, Description := jsonText (joinArgs args),
             FinishedAt := Time.zero } ∧
    (∀ texts : List String, args = texts.map goString →
      jsonText (joinArgs args) = String.intercalate " " texts) ∧
    (∀ (k : Key) (r : TaskRecord), Store.get s k = some r →
      Store.get (Main.Add s cache args).store k = some r) ∧
    (∀ k : Key, k ≠ itob (intOfUint64 (CreateBucketIfNotExists s).NextSequence.1) →
      Store.get (Main.Add s cache args).store k = Store.get s k) := by
  have hframe := Add_frame_any_store s cache args
  refine ⟨rfl, rfl, rfl, rfl, rfl, itob_bytes _, ?_, hframe.1, ?_, ?_, hframe.2⟩
  · rw [beValue_itob, uint64_intOfUint64]
    simp only [Bucket.NextSequence]
    exact Nat.mod_mod _ _
  · intro texts ht
    rw [ht, jsonText_joinArgs]
  · intro k r hk
    have hne : k ≠ itob (intOfUint64 (CreateBucketIfNotExists s).NextSequence.1) := by
      intro e
      rw [e, hfresh] at hk
      exact Option.noConfusion hk
    rw [hframe.2 k hne, hk]

/-- Instance of C4 amended: `Add buy milk` on the bucket of two tasks. -/
theorem Add_creates_one_active_record_witness :
    Store.get (some sampleTwo)
      (itob (intOfUint64 (CreateBucketIfNotExists (some sampleTwo)).NextSequence.1)) = none ∧
    (Main.Add (some sampleTwo) [itob 1] [goString "buy", goString "milk"]).store =
      some { sequence := 3,
             entries := sampleTwo.entries ++ [(itob 3, ⟨true, "buy milk", Time.zero⟩)] } ∧
    Store.get (Main.Add (some sampleTwo) [itob 1] [goString "buy", goString "milk"]).store
        (itob (intOfUint64 (CreateBucketIfNotExists (some sampleTwo)).NextSequence.1)) =
      some { IsActive := true,
             Description := jsonText (joinArgs [goString "buy", goString "milk"]),
             FinishedAt := Time.zero } ∧
    (∀ (k : Key) (r : TaskRecord), Store.get (some sampleTwo) k = some r →
      Store.get (Main.Add (some sampleTwo) [itob 1]
        [goString "buy", goString "milk"]).store k = some r) :=
  ⟨by decide, by decide,
    (Add_creates_one_active_record (some sampleTwo) [itob 1]
      [goString "buy", goString "milk"] (by decide)).2.2.2.2.2.2.2.1,
    (Add_creates_one_active_record (some sampleTwo) [itob 1]
      [goString "buy", goString "milk"] (by decide)).2.2.2.2.2.2.2.2.2.1⟩

theorem run_adds (s : Store) (cache : KeyList) (calls : List (List GoString))
    (hs : s.Consistent) (hcalls : s.sequence + calls.length < 2 ^ 64) :
    (run ⟨s, cache⟩ (calls.map Op.add)).store.Consistent ∧
    (run ⟨s, cache⟩ (calls.map Op.add)).store.sequence = s.sequence + calls.length ∧
    (run ⟨s, cache⟩ (calls.map Op.add)).store.entries =
      s.entries ++ addedEntries s.sequence calls := by
  induction calls generalizing s with
  | nil => simp [run, addedEntries, hs]
  | cons args t ih =>
    simp only [List.length_cons] at hcalls
    have hseq : s.sequence + 1 < 2 ^ 64 := by omega
    have hstep : step ⟨s, cache⟩ (Op.add args) =
        ⟨(Main.Add s cache args).store, cache⟩ := rfl
    have hc := Add_consistent s cache args hs hseq
    have happ := Add_appends s cache args hs hseq
    have hsq : (Main.Add s cache args).store.sequence = s.sequence + 1 := by
      rw [happ]; rfl
    have hen : (Main.Add s cache args).store.entries =
        s.entries ++ [(itob ((s.sequence + 1 : Nat) : Int),
          { IsActive := true, Description := jsonText (joinArgs args),
            FinishedAt := Time.zero })] := by
      rw [happ]; rfl
    have h := ih (Main.Add s cache args).store hc (by rw [hsq]; omega)
    simp only [List.map_cons, run, List.foldl_cons, hstep]
    simp only [run] at h
    refine ⟨h.1, ?_, ?_⟩
    · rw [h.2.1, hsq, List.length_cons]; omega
    · rw [h.2.2, hen, hsq]
      simp [addedEntries]

/-- C8: `itob` returns 8 bytes; for unsigned 64-bit numbers `a < b` the key of `a`
is below the key of `b` in byte order; and a run of `Add` calls on a store that
meets its data model, the counter not reaching its 64-bit limit, leaves the old
pairs followed by the new ones in call order, the i-th new key being `itob` of
the counter plus i, with all keys strictly ascending: every key is above all
keys assigned before it and iteration visits the records in insertion order. -/
theorem Add_keys_strictly_increasing (v : Int) (a b : Nat) (s : Store) (cache : KeyList)
    (calls : List (List GoString)) (hab : a < b) (hb : b < 2 ^ 64) (hs : s.Consistent)
    (hcalls : s.sequence + calls.length < 2 ^ 64) :
    (itob v).length = 8 ∧
    bytesLess (itob (intOfUint64 a)) (itob (intOfUint64 b)) = true ∧
    (run ⟨s, cache⟩ (calls.map Op.add)).store.sequence = s.sequence + calls.length ∧
    (run ⟨s, cache⟩ (calls.map Op.add)).store.entries =
      s.entries ++ addedEntries s.sequence calls ∧
    ((run ⟨s, cache⟩ (calls.map Op.add)).store.entries.map Prod.fst).Pairwise
      (fun x y => bytesLess x y = true) := by
  have h := run_adds s cache calls hs hcalls
  refine ⟨rfl, ?_, h.2.1, h.2.2, h.1.1⟩
  rw [itob_intOfUint64, itob_intOfUint64, Nat.mod_eq_of_lt hb,
    Nat.mod_eq_of_lt (Nat.lt_trans hab hb)]
  exact bytesLess_itob_nat hab hb

/-- Instance of C8: the numbers 255 and 256, and two `Add` calls on a new file. -/
theorem Add_keys_strictly_increasing_witness :
    255 < 256 ∧ 256 < 2 ^ 64 ∧ Store.Consistent none ∧
    Store.sequence none + [[goString "a"], [goString "b"]].length < 2 ^ 64 ∧
    (itob (-1)).length = 8 ∧
    bytesLess (itob (intOfUint64 255)) (itob (intOfUint64 256)) = true ∧
    (run ⟨none, []⟩ ([[goString "a"], [goString "b"]].map Op.add)).store.sequence =
      Store.sequence none + [[goString "a"], [goString "b"]].length ∧
    (run ⟨none, []⟩ ([[goString "a"], [goString "b"]].map Op.add)).store.entries =
      Store.entries none ++ addedEntries (Store.sequence none) [[goString "a"], [goString "b"]] ∧
    ((run ⟨none, []⟩ ([[goString "a"], [goString "b"]].map Op.add)).store.entries.map Prod.fst).Pairwise
      (fun x y => bytesLess x y = true) :=
  ⟨by decide, by decide, by decide, by decide,
    Add_keys_strictly_increasing (-1) 255 256 none [] [[goString "a"], [goString "b"]]
      (by decide) (by decide) (by decide) (by decide)⟩

/-! ## The effect of one command on the state -/

theorem getEntries_of_mem {es : List (Key × TaskRecord)} {k : Key} {r : TaskRecord}
    (hwf : (es.map Prod.fst).Pairwise (fun a c => bytesLess a c = true))
    (h : (k, r) ∈ es) : getEntries es k = some r := by
  induction es with
  | nil => simp at h
  | cons hd t ih =>
    obtain ⟨k0, r0⟩ := hd
    simp only [List.map_cons, List.pairwise_cons] at hwf
    simp only [List.mem_cons, Prod.mk.injEq] at h
    rcases h with h | h
    · simp [getEntries, h.1, h.2]
    · have hk : k ≠ k0 := fun e =>
        bytesLess_ne (hwf.1 k (List.mem_map.mpr ⟨(k, r), h, rfl⟩)) e.symm
      simp only [getEntries, hk, if_false]
      exact ih hwf.2 h

theorem getEntries_of_mem_activeKeys {es : List (Key × TaskRecord)} {k : Key}
    (hwf : (es.map Prod.fst).Pairwise (fun a c => bytesLess a c = true))
    (h : k ∈ activeKeys es) : ∃ r, getEntries es k = some r ∧ r.IsActive = true := by
  simp only [activeKeys, activeEntries, List.mem_map, List.mem_filter] at h
  obtain ⟨⟨k2, r⟩, ⟨hmem, hact⟩, hk⟩ := h
  simp only at hk hact
  subst hk
  exact ⟨r, getEntries_of_mem hwf hmem, hact⟩

theorem mem_putEntries {es : List (Key × TaskRecord)} {k : Key} {v : TaskRecord}
    {x : Key × TaskRecord} (h : x ∈ putEntries es k v) : x = (k, v) ∨ x ∈ es := by
  induction es with
  | nil => simpa [putEntries] using h
  | cons hd t ih =>
    obtain ⟨k0, v0⟩ := hd
    simp only [putEntries] at h
    split at h
    · simp only [List.mem_cons] at h ⊢
      rcases h with h | h
      · exact Or.inl h
      · exact Or.inr (Or.inr h)
    · split at h
      · simpa only [List.mem_cons] using h
      · simp only [List.mem_cons] at h ⊢
        rcases h with h | h
        · exact Or.inr (Or.inl h)
        · rcases ih h with h2 | h2
          · exact Or.inl h2
          · exact Or.inr (Or.inr h2)

theorem mem_deleteEntries {es : List (Key × TaskRecord)} {k : Key}
    {x : Key × TaskRecord} (h : x ∈ deleteEntries es k) : x ∈ es := by
  induction es with
  | nil => simp [deleteEntries] at h
  | cons hd t ih =>
    obtain ⟨k0, v0⟩ := hd
    simp only [deleteEntries] at h
    split at h
    · exact List.mem_cons_of_mem _ h
    · simp only [List.mem_cons] at h ⊢
      rcases h with h | h
      · exact Or.inl h
      · exact Or.inr (ih h)

theorem Do_nonempty (b : Bucket) (tl : KeyList) (v : Int) (now : Time)
    (h : ¬ tl.length = 0) :
    Main.Do (some b) tl v now =
      if v - 1 < 0 ∨ (tl.length : Int) ≤ v - 1 then
        { store := some b, taskList := tl, out := [], err := some .indexOutOfRange }
      else
        match b.Get (tl.getD (v - 1).toNat []) with
        | none => { store := some b, taskList := tl, out := [], err := some .unmarshal }
        | some task =>
          { store := some (b.Put (tl.getD (v - 1).toNat [])
              { task with IsActive := false, FinishedAt := now }),
            taskList := tl,
            out := ["You have completed the " ++ task.Description ++ " task."],
            err := none } := by
  simp only [Main.Do, h, if_false]

theorem Remove_nonempty (b : Bucket) (tl : KeyList) (v : Int) (h : ¬ tl.length = 0) :
    Main.Remove (some b) tl v =
      if v - 1 < 0 ∨ (tl.length : Int) ≤ v - 1 then
        { store := some b, taskList := tl, out := [], err := some .indexOutOfRange }
      else
        { store := some (b.Delete (tl.getD (v - 1).toNat [])), taskList := tl, out := [],
          err := none } := by
  simp only [Main.Remove, h, if_false]

theorem getD_mem_of_index (tl : KeyList) (v : Int)
    (h : ¬ (v - 1 < 0 ∨ (tl.length : Int) ≤ v - 1)) : tl.getD (v - 1).toNat [] ∈ tl := by
  have hlt : (v - 1).toNat < tl.length := by omega
  rw [List.getD_eq_getElem _ _ hlt]
  exact List.getElem_mem _

theorem Do_effect_nonempty (b : Bucket) (tl : KeyList) (v : Int) (now : Time)
    (h : ¬ tl.length = 0) :
    (Main.Do (some b) tl v now).taskList = tl ∧
    ((Main.Do (some b) tl v now).store = some b ∨
      ∃ (key : Key) (task : TaskRecord), key ∈ tl ∧ b.Get key = some task ∧
        (Main.Do (some b) tl v now).store =
          some (b.Put key { task with IsActive := false, FinishedAt := now })) := by
  rw [Do_nonempty b tl v now h]
  split
  · exact ⟨rfl, Or.inl rfl⟩
  · rename_i hidx
    split
    · exact ⟨rfl, Or.inl rfl⟩
    · rename_i task hget
      exact ⟨rfl, Or.inr ⟨_, task, getD_mem_of_index tl v hidx, hget, rfl⟩⟩

theorem Remove_effect_nonempty (b : Bucket) (tl : KeyList) (v : Int)
    (h : ¬ tl.length = 0) :
    (Main.Remove (some b) tl v).taskList = tl ∧
    ((Main.Remove (some b) tl v).store = some b ∨
      ∃ key : Key, key ∈ tl ∧ (Main.Remove (some b) tl v).store = some (b.Delete key)) := by
  rw [Remove_nonempty b tl v h]
  split
  · exact ⟨rfl, Or.inl rfl⟩
  · rename_i hidx
    exact ⟨rfl, Or.inr ⟨_, getD_mem_of_index tl v hidx, rfl⟩⟩

theorem length_ne_zero_of_ne_nil {tl : KeyList} (h : tl ≠ []) : ¬ tl.length = 0 :=
  fun h0 => h (List.length_eq_zero.mp h0)

/-- Outcome of `Do` on any state: the cache afterwards is the old one, empty or
the rebuilt one, and the store is untouched or one record reached through that
cache was overwritten. -/
theorem Do_effect (s : Store) (cache : KeyList) (v : Int) (now : Time) :
    ((Main.Do s cache v now).taskList = cache ∨ (Main.Do s cache v now).taskList = [] ∨
      ∃ b, s = some b ∧ (Main.Do s cache v now).taskList = activeKeys b.entries) ∧
    ((Main.Do s cache v now).store = s ∨
      ∃ (b : Bucket) (key : Key) (task : TaskRecord), s = some b ∧
        key ∈ (Main.Do s cache v now).taskList ∧ b.Get key = some task ∧
        (Main.Do s cache v now).store =
          some (b.Put key { task with IsActive := false, FinishedAt := now })) := by
  cases s with
  | none =>
    by_cases hc : cache.length = 0
    · simp [Main.Do, hc, Main.updateTaskList]
    · simp [Main.Do, hc]
  | some b =>
    by_cases hc : cache.length = 0
    · have hnil : cache = [] := List.length_eq_zero.mp hc
      subst hnil
      rcases Do_rebuilt b v now with h | h
      · rw [h.2]
        have he := Do_effect_nonempty b _ v now (length_ne_zero_of_ne_nil h.1)
        refine ⟨Or.inr (Or.inr ⟨b, rfl, he.1⟩), ?_⟩
        rcases he.2 with h2 | ⟨key, task, hmem, hget, hst⟩
        · exact Or.inl h2
        · exact Or.inr ⟨b, key, task, rfl, by rw [he.1]; exact hmem, hget, hst⟩
      · rw [h.2]
        exact ⟨Or.inl rfl, Or.inl rfl⟩
    · have he := Do_effect_nonempty b cache v now hc
      refine ⟨Or.inl he.1, ?_⟩
      rcases he.2 with h2 | ⟨key, task, hmem, hget, hst⟩
      · exact Or.inl h2
      · exact Or.inr ⟨b, key, task, rfl, by rw [he.1]; exact hmem, hget, hst⟩

/-- Outcome of `Remove` on any state: the cache afterwards is the old one, empty
or the rebuilt one, and the store is untouched or one key found in that cache
was deleted. -/
theorem Remove_effect (s : Store) (cache : KeyList) (v : Int) :
    ((Main.Remove s cache v).taskList = cache ∨ (Main.Remove s cache v).taskList = [] ∨
      ∃ b, s = some b ∧ (Main.Remove s cache v).taskList = activeKeys b.entries) ∧
    ((Main.Remove s cache v).store = s ∨
      ∃ (b : Bucket) (key : Key), s = some b ∧ key ∈ (Main.Remove s cache v).taskList ∧
        (Main.Remove s cache v).store = some (b.Delete key)) := by
  cases s with
  | none =>
    by_cases hc : cache.length = 0
    · simp [Main.Remove, hc, Main.updateTaskList]
    · simp [Main.Remove, hc]
  | some b =>
    by_cases hc : cache.length = 0
    · have hnil : cache = [] := List.length_eq_zero.mp hc
      subst hnil
      rcases Remove_rebuilt b v with h | h
      · rw [h.2]
        have he := Remove_effect_nonempty b _ v (length_ne_zero_of_ne_nil h.1)
        refine ⟨Or.inr (Or.inr ⟨b, rfl, he.1⟩), ?_⟩
        rcases he.2 with h2 | ⟨key, hmem, hst⟩
        · exact Or.inl h2
        · exact Or.inr ⟨b, key, rfl, by rw [he.1]; exact hmem, hst⟩
      · rw [h.2]
        exact ⟨Or.inl rfl, Or.inl rfl⟩
    · have he := Remove_effect_nonempty b cache v hc
      refine ⟨Or.inl he.1, ?_⟩
      rcases he.2 with h2 | ⟨key, hmem, hst⟩
      · exact Or.inl h2
      · exact Or.inr ⟨b, key, rfl, by rw [he.1]; exact hmem, hst⟩

theorem List_store (s : Store) (cache : KeyList) : (Main.List s cache).store = s := by
  cases s with
  | none => rfl
  | some b => rw [List_some]

theorem Completed_store (s : Store) (cache : KeyList) (now : Time) :
    (Main.Completed s cache now).store = s ∧ (Main.Completed s cache now).taskList = cache := by
  cases s with
  | none => exact ⟨rfl, rfl⟩
  | some b => exact ⟨rfl, rfl⟩

theorem Add_entries (s : Store) (cache : KeyList) (args : List GoString) :
    (Main.Add s cache args).store.entries =
      putEntries s.entries (itob (intOfUint64 (CreateBucketIfNotExists s).NextSequence.1))
        { IsActive := true, Description := jsonText (joinArgs args),
          FinishedAt := Time.zero } := rfl

theorem Consistent_put {b : Bucket} {key : Key} {task : TaskRecord} (v : TaskRecord)
    (hs : Store.Consistent (some b)) (hget : b.Get key = some task) :
    Store.Consistent (some (b.Put key v)) := by
  refine ⟨pairwise_keys_put _ _ hs.1, ?_⟩
  intro kv hkv
  rcases mem_putEntries hkv with h | h
  · rw [h]
    exact hs.2 (key, task) (getEntries_mem hget)
  · exact hs.2 kv h

theorem Consistent_delete {b : Bucket} (key : Key) (hs : Store.Consistent (some b)) :
    Store.Consistent (some (b.Delete key)) :=
  ⟨pairwise_keys_delete _ hs.1, fun kv hkv => hs.2 kv (mem_deleteEntries hkv)⟩

/-! ## Invariants over command sequences -/

theorem step_partitioned (st : State) (op : Op) (hclock : op.clockSet = true)
    (hp : ∀ kv ∈ st.store.entries,
      (kv.2.IsActive = true ∧ kv.2.FinishedAt = Time.zero) ∨
      (kv.2.IsActive = false ∧ kv.2.FinishedAt ≠ Time.zero)) :
    ∀ kv ∈ (step st op).store.entries,
      (kv.2.IsActive = true ∧ kv.2.FinishedAt = Time.zero) ∨
      (kv.2.IsActive = false ∧ kv.2.FinishedAt ≠ Time.zero) := by
  cases op with
  | add args =>
    intro kv hkv
    have hkv2 : kv ∈ (Main.Add st.store st.taskList args).store.entries := hkv
    rw [Add_entries] at hkv2
    rcases mem_putEntries hkv2 with h | h
    · rw [h]; exact Or.inl ⟨rfl, rfl⟩
    · exact hp kv h
  | list =>
    have h : (step st Op.list).store = st.store := List_store _ _
    rw [h]; exact hp
  | done value now =>
    have hnow : now ≠ Time.zero := by simpa [Op.clockSet] using hclock
    have h : (step st (Op.done value now)).store = (Main.Do st.store st.taskList value now).store :=
      rfl
    rw [h]
    rcases (Do_effect st.store st.taskList value now).2 with h2 | ⟨b, key, task, hb, _, _, hst⟩
    · rw [h2]; exact hp
    · rw [hst]
      intro kv hkv
      rcases mem_putEntries hkv with h3 | h3
      · rw [h3]; exact Or.inr ⟨rfl, hnow⟩
      · rw [hb] at hp; exact hp kv h3
  | remove value =>
    have h : (step st (Op.remove value)).store = (Main.Remove st.store st.taskList value).store :=
      rfl
    rw [h]
    rcases (Remove_effect st.store st.taskList value).2 with h2 | ⟨b, key, hb, _, hst⟩
    · rw [h2]; exact hp
    · rw [hst]
      intro kv hkv
      rw [hb] at hp
      exact hp kv (mem_deleteEntries hkv)
  | completed now =>
    have h : (step st (Op.completed now)).store = st.store := (Completed_store _ _ _).1
    rw [h]; exact hp
  | restart => exact hp
  | reread reads => exact hp

theorem run_partitioned (st : State) (ops : List Op)
    (hclock : ∀ op ∈ ops, op.clockSet = true)
    (hp : ∀ kv ∈ st.store.entries,
      (kv.2.IsActive = true ∧ kv.2.FinishedAt = Time.zero) ∨
      (kv.2.IsActive = false ∧ kv.2.FinishedAt ≠ Time.zero)) :
    ∀ kv ∈ (run st ops).store.entries,
      (kv.2.IsActive = true ∧ kv.2.FinishedAt = Time.zero) ∨
      (kv.2.IsActive = false ∧ kv.2.FinishedAt ≠ Time.zero) := by
  induction ops generalizing st with
  | nil => exact hp
  | cons op t ih =>
    have h1 := step_partitioned st op (hclock op (List.mem_cons_self _ _)) hp
    exact ih (step st op) (fun o ho => hclock o (List.mem_cons_of_mem _ ho)) h1

/-- C10: if no `do` command observes the zero clock reading, then after every
sequence of commands run from the empty database file (with or without process
restarts in between, whatever the kept slices read as) each stored record is
either active with `FinishedAt` zero or inactive with `FinishedAt` not zero, and
never both. -/
theorem reachable_records_partitioned (ops : List Op)
    (hclock : ∀ op ∈ ops, op.clockSet = true) :
    ∀ kv ∈ (run State.initial ops).store.entries,
      ((kv.2.IsActive = true ∧ kv.2.FinishedAt = Time.zero) ∨
        (kv.2.IsActive = false ∧ kv.2.FinishedAt ≠ Time.zero)) ∧
      ¬ ((kv.2.IsActive = true ∧ kv.2.FinishedAt = Time.zero) ∧
        (kv.2.IsActive = false ∧ kv.2.FinishedAt ≠ Time.zero)) := by
  intro kv hkv
  refine ⟨run_partitioned State.initial ops hclock (fun x hx => ?_) kv hkv, ?_⟩
  · simp [State.initial, Store.entries, CreateBucketIfNotExists] at hx
  · rintro ⟨⟨h1, _⟩, ⟨h2, _⟩⟩
    rw [h1] at h2
    exact Bool.noConfusion h2

/-- Instance of C10: two tasks added, listed, the first done twice, one removed. -/
theorem reachable_records_partitioned_witness :
    (∀ op ∈ [Op.add [goString "a"], Op.add [goString "b"], Op.list, Op.done 1 ⟨7⟩, Op.done 1 ⟨9⟩,
        Op.remove 2, Op.completed ⟨9⟩, Op.add []], op.clockSet = true) ∧
    ∀ kv ∈ (run State.initial [Op.add [goString "a"], Op.add [goString "b"], Op.list, Op.done 1 ⟨7⟩,
        Op.done 1 ⟨9⟩, Op.remove 2, Op.completed ⟨9⟩, Op.add []]).store.entries,
      ((kv.2.IsActive = true ∧ kv.2.FinishedAt = Time.zero) ∨
        (kv.2.IsActive = false ∧ kv.2.FinishedAt ≠ Time.zero)) ∧
      ¬ ((kv.2.IsActive = true ∧ kv.2.FinishedAt = Time.zero) ∧
        (kv.2.IsActive = false ∧ kv.2.FinishedAt ≠ Time.zero)) :=
  ⟨by decide, reachable_records_partitioned _ (by decide)⟩

theorem countAdds_cons (op : Op) (t : List Op) :
    countAdds (op :: t) = countAdds [op] + countAdds t := by
  cases op <;> simp only [countAdds] <;> omega

theorem step_consistent (st : State) (op : Op) (hs : st.store.Consistent)
    (hseq : st.store.sequence + countAdds [op] < 2 ^ 64) :
    (step st op).store.Consistent ∧
    (step st op).store.sequence = st.store.sequence + countAdds [op] := by
  cases op with
  | add args =>
    have hseq1 : st.store.sequence + 1 < 2 ^ 64 := hseq
    have hst : (step st (Op.add args)).store = (Main.Add st.store st.taskList args).store := rfl
    refine ⟨by rw [hst]; exact Add_consistent _ _ _ hs hseq1, ?_⟩
    rw [hst, Add_eq _ _ _ hseq1]; rfl
  | list =>
    have hst : (step st Op.list).store = st.store := List_store _ _
    rw [hst]; exact ⟨hs, rfl⟩
  | done value now =>
    have hst : (step st (Op.done value now)).store =
        (Main.Do st.store st.taskList value now).store := rfl
    rw [hst]
    rcases (Do_effect st.store st.taskList value now).2 with h2 | ⟨b, key, task, hb, _, hget, hput⟩
    · rw [h2]; exact ⟨hs, rfl⟩
    · rw [hput]
      rw [hb] at hs
      exact ⟨Consistent_put _ hs hget, by rw [hb]; rfl⟩
  | remove value =>
    have hst : (step st (Op.remove value)).store =
        (Main.Remove st.store st.taskList value).store := rfl
    rw [hst]
    rcases (Remove_effect st.store st.taskList value).2 with h2 | ⟨b, key, hb, _, hdel⟩
    · rw [h2]; exact ⟨hs, rfl⟩
    · rw [hdel]
      rw [hb] at hs
      exact ⟨Consistent_delete key hs, by rw [hb]; rfl⟩
  | completed now =>
    have hst : (step st (Op.completed now)).store = st.store := (Completed_store _ _ _).1
    rw [hst]; exact ⟨hs, rfl⟩
  | restart => exact ⟨hs, rfl⟩
  | reread reads => exact ⟨hs, rfl⟩

/-- The data model is an invariant of the program: commands run on a store that
meets it (the empty database file does) lead to a store that meets it, as long
as the counter does not reach its 64-bit limit. -/
theorem reachable_consistent (st : State) (ops : List Op) (hs : st.store.Consistent)
    (hseq : st.store.sequence + countAdds ops < 2 ^ 64) :
    (run st ops).store.Consistent ∧
    (run st ops).store.sequence = st.store.sequence + countAdds ops := by
  induction ops generalizing st with
  | nil => exact ⟨hs, rfl⟩
  | cons op t ih =>
    rw [countAdds_cons] at hseq ⊢
    have h1 := step_consistent st op hs (by omega)
    have h2 := ih (step st op) h1.1 (by rw [h1.2]; omega)
    have hrun : run st (op :: t) = run (step st op) t := rfl
    rw [hrun]
    exact ⟨h2.1, by rw [h2.2, h1.2]; omega⟩

theorem not_mem_new_cache {s : Store} {cache tl : KeyList} {k : Key} {d : String}
    (hs : s.Consistent)
    (hg : Store.get s k = none ∨
      ∃ r, Store.get s k = some r ∧ r.IsActive = false ∧ r.Description = d)
    (hc : k ∉ cache)
    (htl : tl = cache ∨ tl = [] ∨ ∃ b, s = some b ∧ tl = activeKeys b.entries) :
    k ∉ tl := by
  rcases htl with h | h | ⟨b, hb, h⟩
  · rw [h]; exact hc
  · rw [h]; exact List.not_mem_nil _
  · rw [h]
    intro hmem
    subst hb
    obtain ⟨r, hr, hact⟩ := getEntries_of_mem_activeKeys hs.1 hmem
    have hr2 : Store.get (some b) k = some r := hr
    rcases hg with h0 | ⟨r2, h1, h2, _⟩
    · rw [h0] at hr2; exact Option.noConfusion hr2
    · rw [h1] at hr2
      simp only [Option.some.injEq] at hr2
      rw [hr2, hact] at h2
      exact Bool.noConfusion h2

/-- One command keeps a completed record completed: the store stays within its
data model, the record under `k` is absent or inactive with description `d`, a
key that the cache does not read as keeps its record, and only a `remove` can
make the key absent. -/
theorem step_inactive (st : State) (op : Op) (k : Key) (d : String)
    (hs : st.store.Consistent)
    (hseq : st.store.sequence + countAdds [op] < 2 ^ 64)
    (hk : ∃ i, i < st.store.sequence ∧ k = itob ((i + 1 : Nat) : Int))
    (hg : Store.get st.store k = none ∨
      ∃ r, Store.get st.store k = some r ∧ r.IsActive = false ∧ r.Description = d) :
    (step st op).store.Consistent ∧
    (step st op).store.sequence = st.store.sequence + countAdds [op] ∧
    (Store.get (step st op).store k = none ∨
      ∃ r, Store.get (step st op).store k = some r ∧ r.IsActive = false ∧
        r.Description = d) ∧
    (k ∉ st.taskList → Store.get (step st op).store k = Store.get st.store k) ∧
    (op.isRemove = false → Store.get st.store k ≠ none →
      Store.get (step st op).store k ≠ none) := by
  cases op with
  | add args =>
    have hseq1 : st.store.sequence + 1 < 2 ^ 64 := hseq
    have hst : (step st (Op.add args)).store = (Main.Add st.store st.taskList args).store := rfl
    have hsame : Store.get (step st (Op.add args)).store k = Store.get st.store k := by
      obtain ⟨i, hi, hki⟩ := hk
      have hne : k ≠ itob ((st.store.sequence + 1 : Nat) : Int) := by
        rw [hki]
        exact bytesLess_ne (bytesLess_itob_nat (by omega) hseq1)
      rw [hst, Add_eq _ _ _ hseq1, Store.get_eq st.store]
      simp only [Store.get, Bucket.Get]
      exact getEntries_put_other _ _ _ _ hne
    refine ⟨?_, ?_, ?_, ?_, ?_⟩
    · rw [hst]; exact Add_consistent _ _ _ hs hseq1
    · rw [hst, Add_eq _ _ _ hseq1]; rfl
    · rw [hsame]; exact hg
    · intro _; exact hsame
    · intro _ hne; rw [hsame]; exact hne
  | list =>
    have hst : (step st Op.list).store = st.store := List_store _ _
    have htl : (step st Op.list).taskList = [] ∨
        ∃ b, st.store = some b ∧ (step st Op.list).taskList = activeKeys b.entries := by
      cases hb : st.store with
      | none => left; simp [step, exec, hb, Main.List]
      | some b => right; exact ⟨b, rfl, by simp [step, exec, hb, List_some]⟩
    refine ⟨by rw [hst]; exact hs, by rw [hst]; rfl, by rw [hst]; exact hg, ?_, ?_⟩
    · intro _
      rw [hst]
    · intro _ hne; rw [hst]; exact hne
  | done value now =>
    have hst : (step st (Op.done value now)).store =
        (Main.Do st.store st.taskList value now).store := rfl
    have he := Do_effect st.store st.taskList value now
    rw [hst]
    rcases he.2 with h2 | ⟨b, key, task, hb, hmem, hget, hput⟩
    · rw [h2]
      exact ⟨hs, rfl, hg, fun _ => rfl, fun _ hne => hne⟩
    · rw [hput]
      rw [hb] at hs hg
      have hcons := Consistent_put { task with IsActive := false, FinishedAt := now } hs hget
      by_cases hkey : k = key
      · subst hkey
        have hnew : Store.get (some (b.Put k { task with IsActive := false, FinishedAt := now })) k
            = some { task with IsActive := false, FinishedAt := now } :=
          getEntries_put_same _ _ _
        have hd : task.Description = d := by
          rcases hg with h0 | ⟨r, h1, _, h3⟩
          · have : b.Get k = none := h0
            rw [this] at hget; exact Option.noConfusion hget
          · have : b.Get k = some r := h1
            rw [this] at hget
            simp only [Option.some.injEq] at hget
            rw [← hget]; exact h3
        refine ⟨hcons, by rw [hb]; rfl, Or.inr ⟨_, hnew, rfl, hd⟩, ?_, ?_⟩
        · intro hc
          rw [← hb] at hs hg
          exact absurd hmem (not_mem_new_cache hs hg hc he.1)
        · intro _ _; rw [hnew]; exact Option.some_ne_none _
      · have hsame : Store.get (some (b.Put key { task with IsActive := false, FinishedAt := now })) k
            = Store.get (some b) k := getEntries_put_other _ _ _ _ hkey
        refine ⟨hcons, by rw [hb]; rfl, by rw [hsame]; exact hg, ?_, ?_⟩
        · intro _
          rw [hsame, hb]
        · intro _ hne; rw [hsame, ← hb]; exact hne
  | remove value =>
    have hst : (step st (Op.remove value)).store =
        (Main.Remove st.store st.taskList value).store := rfl
    have he := Remove_effect st.store st.taskList value
    rw [hst]
    rcases he.2 with h2 | ⟨b, key, hb, hmem, hdel⟩
    · rw [h2]
      exact ⟨hs, rfl, hg, fun _ => rfl, fun _ hne => hne⟩
    · rw [hdel]
      rw [hb] at hs hg
      have hcons := Consistent_delete key hs
      by_cases hkey : k = key
      · subst hkey
        have hnew : Store.get (some (b.Delete k)) k = none := getEntries_delete_same _ hs.1
        refine ⟨hcons, by rw [hb]; rfl, Or.inl hnew, ?_, ?_⟩
        · intro hc
          rw [← hb] at hs hg
          exact absurd hmem (not_mem_new_cache hs hg hc he.1)
        · intro h; exact Bool.noConfusion h
      · have hsame : Store.get (some (b.Delete key)) k = Store.get (some b) k :=
          getEntries_delete_other _ _ _ hkey
        refine ⟨hcons, by rw [hb]; rfl, by rw [hsame]; exact hg, ?_, ?_⟩
        · intro _
          rw [hsame, hb]
        · intro h; exact Bool.noConfusion h
  | completed now =>
    have hc := Completed_store st.store st.taskList now
    have hst : (step st (Op.completed now)).store = st.store := hc.1
    rw [hst]
    exact ⟨hs, rfl, hg, fun _ => rfl, fun _ hne => hne⟩
  | restart =>
    exact ⟨hs, rfl, hg, fun _ => rfl, fun _ hne => hne⟩
  | reread reads =>
    exact ⟨hs, rfl, hg, fun _ => rfl, fun _ hne => hne⟩

theorem run_inactive (st : State) (ops : List Op) (k : Key) (d : String)
    (hs : st.store.Consistent)
    (hseq : st.store.sequence + countAdds ops < 2 ^ 64)
    (hk : ∃ i, i < st.store.sequence ∧ k = itob ((i + 1 : Nat) : Int))
    (hg : Store.get st.store k = none ∨
      ∃ r, Store.get st.store k = some r ∧ r.IsActive = false ∧ r.Description = d) :
    (Store.get (run st ops).store k = none ∨
      ∃ r, Store.get (run st ops).store k = some r ∧ r.IsActive = false ∧
        r.Description = d) ∧
    ((∀ op ∈ ops, op.isRemove = false) → Store.get st.store k ≠ none →
      Store.get (run st ops).store k ≠ none) := by
  induction ops generalizing st with
  | nil => exact ⟨hg, fun _ hne => hne⟩
  | cons op t ih =>
    rw [countAdds_cons] at hseq
    have h1 := step_inactive st op k d hs (by omega) hk hg
    obtain ⟨i, hi, hki⟩ := hk
    have h2 := ih (step st op) h1.1 (by rw [h1.2.1]; omega)
      ⟨i, by rw [h1.2.1]; omega, hki⟩ h1.2.2.1
    have hrun : run st (op :: t) = run (step st op) t := rfl
    rw [hrun]
    refine ⟨h2.1, ?_⟩
    intro hrm hne
    exact h2.2 (fun o ho => hrm o (List.mem_cons_of_mem _ ho))
      (h1.2.2.2.2 (hrm op (List.mem_cons_self _ _)) hne)

theorem runFresh_inactive (st : State) (ops : List Op) (k : Key) (d : String)
    (hs : st.store.Consistent)
    (hseq : st.store.sequence + countAdds ops < 2 ^ 64)
    (hk : ∃ i, i < st.store.sequence ∧ k = itob ((i + 1 : Nat) : Int))
    (hg : Store.get st.store k = none ∨
      ∃ r, Store.get st.store k = some r ∧ r.IsActive = false ∧ r.Description = d) :
    Store.get (runFresh st ops).store k = Store.get st.store k := by
  induction ops generalizing st with
  | nil => rfl
  | cons op t ih =>
    rw [countAdds_cons] at hseq
    have hnil : k ∉ (step st Op.restart).taskList := List.not_mem_nil _
    have h1 := step_inactive (step st Op.restart) op k d hs
      (show st.store.sequence + countAdds [op] < 2 ^ 64 by omega) hk hg
    have hsame : Store.get (step (step st Op.restart) op).store k = Store.get st.store k :=
      h1.2.2.2.1 hnil
    obtain ⟨i, hi, hki⟩ := hk
    have hsq : (step (step st Op.restart) op).store.sequence =
        st.store.sequence + countAdds [op] := h1.2.1
    have h2 := ih (step (step st Op.restart) op) h1.1 (by rw [hsq]; omega)
      ⟨i, by rw [hsq]; omega, hki⟩ h1.2.2.1
    have hrun : runFresh st (op :: t) = runFresh (step (step st Op.restart) op) t := rfl
    rw [hrun, h2, hsame]

/-- C9, as stated, fails.  After `add a`, `list`, `do 1` at reading 7 the record
is inactive with `FinishedAt = 7`; a second `do 1`, resolved through the cache
left by `list`, stores `FinishedAt = 9` under the same key.  And on the bucket
with active key 1 and key 2 completed on 2026-10-20, after `list`, `remove 1` and
`add x` the kept slice, taken from key 1, reads as key 2, and `do 1` on
2026-11-05 stores that date under key 2, which `list` never put in the cache. -/
theorem stale_cache_restamps_completed_record :
    (Store.get (run State.initial [Op.add [goString "a"], Op.list, Op.done 1 ⟨7⟩]).store
        (itob 1) = some { IsActive := false, Description := "a", FinishedAt := ⟨7⟩ } ∧
      (run State.initial [Op.add [goString "a"], Op.list, Op.done 1 ⟨7⟩]).taskList =
        [itob 1] ∧
      Store.get (run (run State.initial [Op.add [goString "a"], Op.list, Op.done 1 ⟨7⟩])
          [Op.done 1 ⟨9⟩]).store (itob 1) =
        some { IsActive := false, Description := "a", FinishedAt := ⟨9⟩ }) ∧
    (Store.get (some sampleStale) (itob 2) =
        some { IsActive := false, Description := "y",
               FinishedAt := ⟨63928051200000000000⟩ } ∧
      (run ⟨some sampleStale, []⟩ [Op.list]).taskList = [itob 1] ∧
      Store.get (run ⟨some sampleStale, []⟩ [Op.list, Op.remove 1, Op.add [goString "x"],
          Op.reread [itob 2], Op.done 1 ⟨63929433600000000000⟩]).store (itob 2) =
        some { IsActive := false, Description := "y",
               FinishedAt := ⟨63929433600000000000⟩ }) := by
  decide

/-- C9, amended: in a state whose store meets its data model, a record stored
under `k` with `IsActive = false`, and commands that do not take the counter to
its 64-bit limit, whatever the kept slices of `taskList` read as in between:
after the commands the key is absent or holds a record that is inactive with the
same description; it is present if no command was a `remove`; and when every
command runs in a process of its own, so that `taskList` is nil when it starts,
the key still holds exactly the same record, `FinishedAt` included. -/
theorem completed_record_never_reactivated (st : State) (ops : List Op) (k : Key)
    (r : TaskRecord) (hs : st.store.Consistent)
    (hseq : st.store.sequence + countAdds ops < 2 ^ 64)
    (hget : Store.get st.store k = some r) (hr : r.IsActive = false) :
    (Store.get (run st ops).store k = none ∨
      ∃ r2, Store.get (run st ops).store k = some r2 ∧ r2.IsActive = false ∧
        r2.Description = r.Description) ∧
    ((∀ op ∈ ops, op.isRemove = false) →
      ∃ r2, Store.get (run st ops).store k = some r2 ∧ r2.IsActive = false ∧
        r2.Description = r.Description) ∧
    Store.get (runFresh st ops).store k = some r := by
  have hk : ∃ i, i < st.store.sequence ∧ k = itob ((i + 1 : Nat) : Int) := by
    rw [Store.get_eq] at hget
    exact hs.2 (k, r) (getEntries_mem hget)
  have hg : Store.get st.store k = none ∨
      ∃ r2, Store.get st.store k = some r2 ∧ r2.IsActive = false ∧
        r2.Description = r.Description := Or.inr ⟨r, hget, hr, rfl⟩
  have h := run_inactive st ops k r.Description hs hseq hk hg
  refine ⟨h.1, ?_, ?_⟩
  · intro hrm
    have hne := h.2 hrm (by rw [hget]; exact Option.some_ne_none _)
    rcases h.1 with h0 | h0
    · exact absurd h0 hne
    · exact h0
  · rw [runFresh_inactive st ops k r.Description hs hseq hk hg, hget]

/-- Instance of C9 amended: the completed task of the example bucket through
`add`, `list`, `do`, `completed` and `remove`, each in a process of its own. -/
theorem completed_record_never_reactivated_witness :
    Store.Consistent (some sampleMixed) ∧
    Store.sequence (some sampleMixed) +
      countAdds [Op.add [goString "z"], Op.list, Op.done 1 ⟨9⟩, Op.completed ⟨9⟩,
        Op.remove 1] < 2 ^ 64 ∧
    Store.get (some sampleMixed) (itob 1) =
      some { IsActive := false, Description := "y", FinishedAt := ⟨63928051200000000000⟩ } ∧
    Store.get (runFresh ⟨some sampleMixed, [itob 2]⟩
        [Op.add [goString "z"], Op.list, Op.done 1 ⟨9⟩, Op.completed ⟨9⟩,
          Op.remove 1]).store (itob 1) =
      some { IsActive := false, Description := "y", FinishedAt := ⟨63928051200000000000⟩ } :=
  ⟨by decide, by decide, by decide,
    (completed_record_never_reactivated ⟨some sampleMixed, [itob 2]⟩
      [Op.add [goString "z"], Op.list, Op.done 1 ⟨9⟩, Op.completed ⟨9⟩, Op.remove 1] (itob 1)
      { IsActive := false, Description := "y", FinishedAt := ⟨63928051200000000000⟩ }
      (by decide) (by decide) (by decide) rfl).2.2⟩

